import Mathlib

/-!
# quill: file utilities (`src/detail/misc/FileUtilities.cpp`) and the time-rotating handler

A shallow embedding of the `quill::detail` file helpers (`fwrite_fully`, `open_file`,
`remove_file`, `rename_file`, the file-name helpers) and of `TimeRotatingFileHandler`, whose
header gives the data members and whose member functions follow the specification.

* `std::string` and the native pathname held by an `fs::path` are `List Char`.
* `fs::path` decomposition follows the C++17 `std::filesystem` rules for the POSIX
  generic format (separator `/`, no root name).
* `std::chrono::system_clock::time_point` is its tick count: an `Int` number of nanoseconds
  since the Unix epoch, in the signed 64-bit range.
* `uint32_t` / `size_t` values are `Nat`; range hypotheses are stated where they matter.
-/

namespace quill

/-! ## `fs::path` -/

namespace fs

/-- The native pathname string of an `fs::path`. -/
abbrev Path := List Char

/-- The directory separator of the generic format. -/
def sep : Char := '/'

/-- `path::filename()`: the characters after the last separator (the whole pathname when
there is none; empty when the pathname ends in a separator). -/
def filename (p : Path) : List Char :=
  (p.reverse.takeWhile (fun c => c != sep)).reverse

/-- `path::has_filename()`. -/
def has_filename (p : Path) : Bool := !(filename p).isEmpty

/-- `path::has_relative_path()`: something other than the root directory is present. -/
def has_relative_path (p : Path) : Bool := p.any (fun c => c != sep)

/-- `path::is_absolute()` on POSIX: the pathname starts with the root directory. -/
def is_absolute (p : Path) : Bool :=
  match p with
  | [] => false
  | c :: _ => c == sep

/-- `path::parent_path()`: the pathname itself when there is no relative path; otherwise the
longest prefix with one element fewer: the part before the last element, without the
separators that end it (a prefix that is only the root directory is `/`). -/
def parent_path (p : Path) : Path :=
  if !has_relative_path p then p
  else
    let dir := p.reverse.dropWhile (fun c => c != sep)
    let body := dir.dropWhile (fun c => c == sep)
    if dir.isEmpty then []
    else if body.isEmpty then [sep]
    else body.reverse

/-- `path::extension()`: empty for the special elements `.` and `..`, for a filename without
a period and for a filename whose only period is its first character; otherwise the suffix of
the filename that starts at its last period. -/
def extension (p : Path) : List Char :=
  let f := filename p
  if f = ['.'] ∨ f = ['.', '.'] then []
  else
    let r := f.reverse
    let tail := r.takeWhile (fun c => c != '.')
    match r.dropWhile (fun c => c != '.') with
    | [] => []
    | _ :: before => if before.isEmpty then [] else '.' :: tail.reverse

/-- `path::stem()`: the filename without its extension. -/
def stem (p : Path) : List Char :=
  let f := filename p
  f.take (f.length - (extension p).length)

/-- `operator/(lhs, rhs)`: an absolute `rhs` replaces `lhs`; otherwise a separator is added
when `lhs` has a filename, and `rhs` is appended. -/
def append (lhs rhs : Path) : Path :=
  if is_absolute rhs then rhs
  else if has_filename lhs then lhs ++ sep :: rhs
  else lhs ++ rhs

end fs

/-! ## Stream insertion of integers -/

/-- The digit loop of `operator<<` for an unsigned value: digits are produced from the least
significant one and pushed in front of what is already there. -/
def put_digits : Nat → Nat → List Char → List Char
  | 0, _, acc => acc
  | fuel + 1, n, acc =>
    if n < 10 then Nat.digitChar n :: acc
    else put_digits fuel (n / 10) (Nat.digitChar (n % 10) :: acc)

/-- `ss << n` for an unsigned `n` with width 0 when the locale of the stream has no digit
grouping (the classic locale, which is the global locale of a process that never sets
another one): the decimal digits of `n`. -/
def put_unsigned (n : Nat) : List Char := put_digits (n + 1) n []

/-- `ss << n` for a signed `n` with width 0 when the locale of the stream has no digit
grouping: a minus sign for a negative value, then the digits of the magnitude. -/
def put_int (n : Int) : List Char :=
  if n < 0 then '-' :: put_unsigned n.natAbs else put_unsigned n.toNat

/-- `ss << std::setfill(fill) << std::setw(w) << n` when the locale of the stream has no
digit grouping: the rendering of `n`, padded on the left with `fill` up to `w` characters
(the default adjustment); never truncated. -/
def put_int_w (fill : Char) (w : Nat) (n : Int) : List Char :=
  let s := put_int n
  List.replicate (w - s.length) fill ++ s

/-- The `std::numpunct<char>` facet of the global C++ locale, which a default-constructed
`std::stringstream` takes: the separator of digit groups and the sizes of the groups, counted
from the least significant digit, the last size being repeated. A size of 0 stands for a
group without limit (a `char` that is not positive, or `CHAR_MAX`); no size at all means no
grouping. -/
structure Numpunct where
  thousands_sep : Char
  grouping : List Nat
  deriving DecidableEq, Repr

/-- The facet of the classic locale: no grouping. -/
def classic_numpunct : Numpunct := { thousands_sep := ',', grouping := [] }

/-- A facet that groups digits by three with a comma, as `en_US` does. -/
def comma_numpunct : Numpunct := { thousands_sep := ',', grouping := [3] }

/-- The grouping loop of `num_put` on the digits taken from the least significant one:
a group of the current size is cut off and followed by the separator as long as more digits
are left; `last` is the size to repeat when the sizes are used up. -/
def insert_separators (sep : Char) : Nat → List Nat → Nat → List Char → List Char
  | 0, _, _, ds => ds
  | fuel + 1, gs, last, ds =>
    if gs.headD last = 0 ∨ ds.length ≤ gs.headD last then ds
    else
      ds.take (gs.headD last) ++
        sep :: insert_separators sep fuel gs.tail (gs.headD last) (ds.drop (gs.headD last))

/-- The digits of a number, most significant first, with the group separators of the
locale. -/
def group_digits (np : Numpunct) (digits : List Char) : List Char :=
  (insert_separators np.thousands_sep digits.length np.grouping 0 digits.reverse).reverse

/-- `ss << n` for an unsigned `n` with width 0, the stream having the global locale `np`. -/
def put_unsigned_loc (np : Numpunct) (n : Nat) : List Char := group_digits np (put_unsigned n)

/-- `ss << n` for a signed `n` with width 0, the stream having the global locale `np`. -/
def put_int_loc (np : Numpunct) (n : Int) : List Char :=
  if n < 0 then '-' :: put_unsigned_loc np n.natAbs else put_unsigned_loc np n.toNat

/-- `ss << std::setfill(fill) << std::setw(w) << n`, the stream having the global locale
`np`: the grouped rendering of `n`, padded on the left with `fill` up to `w` characters. -/
def put_int_w_loc (np : Numpunct) (fill : Char) (w : Nat) (n : Int) : List Char :=
  let s := put_int_loc np n
  List.replicate (w - s.length) fill ++ s

/-- The locale puts no separator into a number of `len` digits: it has no grouping, or its
first group has no limit or is at least `len` digits long. -/
def ungrouped (np : Numpunct) (len : Nat) : Prop :=
  np.grouping.headD 0 = 0 ∨ len ≤ np.grouping.headD 0

instance (np : Numpunct) (len : Nat) : Decidable (ungrouped np len) := by
  unfold ungrouped; infer_instance

/-! ## Time -/

/-- The values a signed 64-bit tick count of `std::chrono::system_clock::time_point`
(nanoseconds since the epoch) can take. -/
def representable (tp : Int) : Prop :=
  -9223372036854775808 ≤ tp ∧ tp ≤ 9223372036854775807

instance (tp : Int) : Decidable (representable tp) := by
  unfold representable; infer_instance

/-- `std::chrono::system_clock::to_time_t`: a `duration_cast` to seconds, which truncates
toward zero. -/
def to_time_t (tp : Int) : Int := Int.tdiv tp 1000000000

/-- The fields of `struct tm` that the file utilities read. -/
structure Tm where
  tm_sec : Int
  tm_min : Int
  tm_hour : Int
  tm_mday : Int
  tm_mon : Int
  tm_year : Int
  deriving DecidableEq, Repr

/-- The proleptic Gregorian date `(year, month, day)` of a day number counted from
1970-01-01, by eras of 400 years (146097 days) that start on 1 March. -/
def civil_from_days (days : Int) : Int × Int × Int :=
  let z := days + 719468
  let era := z / 146097
  let doe := z % 146097
  let yoe := (doe - doe / 1460 + doe / 36524 - doe / 146096) / 365
  let doy := doe - (365 * yoe + yoe / 4 - yoe / 100)
  let mp := (5 * doy + 2) / 153
  let d := doy - (153 * mp + 2) / 5 + 1
  let m := if mp < 10 then mp + 3 else mp - 9
  let y := yoe + era * 400 + (if m ≤ 2 then 1 else 0)
  (y, m, d)

/-- Modelled from the spec: `detail::gmtime_rs` (declared in `quill/detail/misc/Os.h`, its
body is not part of the sources at hand), the broken-down calendar time of a `time_t` "with
zero UTC offset": days and second of the day by flooring division, the date from the day
number, `tm_mon` counted from 0 and `tm_year` from 1900. -/
def gmtime_rs (t : Int) : Tm :=
  let days := t / 86400
  let secs := t % 86400
  let ymd := civil_from_days days
  { tm_sec := secs % 60
    tm_min := secs % 3600 / 60
    tm_hour := secs / 3600
    tm_mday := ymd.2.2
    tm_mon := ymd.2.1 - 1
    tm_year := ymd.1 - 1900 }

/-- `quill::Timezone`. -/
inductive Timezone where
  | LocalTime
  | GmtTime
  deriving DecidableEq, Repr

/-- The clock and the time zone of the host, which the file-name helpers read from their
surroundings: the value `std::chrono::system_clock::now()` returns, and `detail::localtime_rs`,
which depends on the time zone configured for the process. The third thing they read, the
global C++ locale of their string streams, is a `Numpunct`. -/
structure Env where
  now : Int
  localtime_rs : Int → Tm

/-! ## Errors and C stdio -/

/-- `quill::QuillError`, carrying its message. -/
structure QuillError where
  what : List Char
  deriving DecidableEq, Repr

/-- What one call of `std::fwrite` leaves behind: the number of complete objects written,
and `errno` with its `strerror` text. -/
structure FwriteResult where
  written : Nat
  errno : Int
  strerror : List Char

namespace detail

/-- `extract_stem_and_extension`: `(parent_path / stem, extension)` as strings. -/
def extract_stem_and_extension (filename : fs.Path) : List Char × List Char :=
  (fs.append (fs.parent_path filename) (fs.stem filename), fs.extension filename)

/-- `append_index_to_filename` when the global locale has no digit grouping: index 0 gives
the path back, another index is written between the stem and the extension after a period. -/
def append_index_to_filename (filename : fs.Path) (index : Nat) : fs.Path :=
  if index = 0 then filename
  else
    let stem_ext := extract_stem_and_extension filename
    stem_ext.1 ++ ['.'] ++ put_unsigned index ++ stem_ext.2

/-- `append_index_to_filename`, the global locale being `np`: the `std::stringstream ss` of
the function takes that locale, and `ss << index` groups the digits of the index as the
locale says. -/
def append_index_to_filename_loc (np : Numpunct) (filename : fs.Path) (index : Nat) : fs.Path :=
  if index = 0 then filename
  else
    let stem_ext := extract_stem_and_extension filename
    stem_ext.1 ++ ['.'] ++ put_unsigned_loc np index ++ stem_ext.2

/-- `fwrite_fully`: one `std::fwrite` of `count` objects of `size` bytes; `QUILL_THROW` of a
`QuillError` when fewer than `count` objects were written, nothing else otherwise. `fwrite`
stands for the call on the given buffer and stream; `QUILL_THROW`, a macro of `QuillError.h`,
raises its argument. -/
def fwrite_fully (fwrite : Nat → Nat → FwriteResult) (size count : Nat) : Except QuillError Unit :=
  let r := fwrite size count
  if r.written < count then
    Except.error
      { what := "fwrite failed with error message errno: \"".toList ++ put_int r.errno ++
          "\" ".toList ++ r.strerror }
  else Except.ok ()

/-- `append_date_to_filename` when the global locale has no digit grouping. A zero
(default-constructed) `timestamp` is replaced by the current time; the broken-down time is taken in the chosen time zone; minutes and seconds are
zeroed on request; the date, or the date and the time, go between the stem and the extension
after an underscore. -/
def append_date_to_filename (env : Env) (filename : fs.Path) (timestamp : Int)
    (append_time : Bool) (timezone : Timezone) (zero_out_minutes zero_out_seconds : Bool) :
    fs.Path :=
  let ts_now := if timestamp = 0 then env.now else timestamp
  let time_now := to_time_t ts_now
  let now_tm := if timezone = Timezone.GmtTime then gmtime_rs time_now
    else env.localtime_rs time_now
  let now_tm := if zero_out_minutes then { now_tm with tm_min := 0 } else now_tm
  let now_tm := if zero_out_seconds then { now_tm with tm_sec := 0 } else now_tm
  let stem_ext := extract_stem_and_extension filename
  if append_time then
    stem_ext.1 ++ ['_'] ++ put_int_w '0' 4 (now_tm.tm_year + 1900) ++ ['-'] ++
      put_int_w '0' 2 (now_tm.tm_mon + 1) ++ ['-'] ++ put_int_w '0' 2 now_tm.tm_mday ++ ['_'] ++
      put_int_w '0' 2 now_tm.tm_hour ++ ['-'] ++ put_int_w '0' 2 now_tm.tm_min ++ ['-'] ++
      put_int_w '0' 2 now_tm.tm_sec ++ stem_ext.2
  else
    stem_ext.1 ++ ['_'] ++ put_int_w '0' 4 (now_tm.tm_year + 1900) ++ ['-'] ++
      put_int_w '0' 2 (now_tm.tm_mon + 1) ++ ['-'] ++ put_int_w '0' 2 now_tm.tm_mday ++
      stem_ext.2

/-- `append_date_to_filename`, the global locale being `np`: the same steps, the
`std::stringstream ss` of the function taking that locale, so that every number it writes is
grouped as the locale says before it is padded to its width. -/
def append_date_to_filename_loc (np : Numpunct) (env : Env) (filename : fs.Path)
    (timestamp : Int) (append_time : Bool) (timezone : Timezone)
    (zero_out_minutes zero_out_seconds : Bool) : fs.Path :=
  let ts_now := if timestamp = 0 then env.now else timestamp
  let time_now := to_time_t ts_now
  let now_tm := if timezone = Timezone.GmtTime then gmtime_rs time_now
    else env.localtime_rs time_now
  let now_tm := if zero_out_minutes then { now_tm with tm_min := 0 } else now_tm
  let now_tm := if zero_out_seconds then { now_tm with tm_sec := 0 } else now_tm
  let stem_ext := extract_stem_and_extension filename
  if append_time then
    stem_ext.1 ++ ['_'] ++ put_int_w_loc np '0' 4 (now_tm.tm_year + 1900) ++ ['-'] ++
      put_int_w_loc np '0' 2 (now_tm.tm_mon + 1) ++ ['-'] ++
      put_int_w_loc np '0' 2 now_tm.tm_mday ++ ['_'] ++
      put_int_w_loc np '0' 2 now_tm.tm_hour ++ ['-'] ++
      put_int_w_loc np '0' 2 now_tm.tm_min ++ ['-'] ++
      put_int_w_loc np '0' 2 now_tm.tm_sec ++ stem_ext.2
  else
    stem_ext.1 ++ ['_'] ++ put_int_w_loc np '0' 4 (now_tm.tm_year + 1900) ++ ['-'] ++
      put_int_w_loc np '0' 2 (now_tm.tm_mon + 1) ++ ['-'] ++
      put_int_w_loc np '0' 2 now_tm.tm_mday ++ stem_ext.2

end detail

/-! ## Reference notions used in statements -/

/-- The base-10 rendering of `k`, most significant digit first, from the canonical digit list
of `k` (which has no leading zero and is empty only for `0`). -/
def decimal (k : Nat) : List Char := (Nat.digits 10 k).reverse.map Nat.digitChar

/-- The value of a decimal digit character. -/
def digitVal (c : Char) : Nat := c.toNat - 48

/-- Exactly two decimal digits of a number from 0 to 99, a leading zero included. -/
def digits2 (n : Int) : List Char :=
  [Nat.digitChar (n / 10).toNat, Nat.digitChar (n % 10).toNat]

/-- Exactly four decimal digits of a number from 0 to 9999, leading zeros included. -/
def digits4 (n : Int) : List Char :=
  [Nat.digitChar (n / 1000).toNat, Nat.digitChar (n / 100 % 10).toNat,
    Nat.digitChar (n / 10 % 10).toNat, Nat.digitChar (n % 10).toNat]

/-- The UTC calendar date `(year, month, day)` of an instant: the date of the day in which
the instant falls, days being counted from the epoch by flooring. -/
def utc_date (tp : Int) : Int × Int × Int := civil_from_days (tp / 86400000000000)

/-- The UTC hour of the day of an instant. -/
def utc_hour (tp : Int) : Int := tp % 86400000000000 / 3600000000000

/-- The UTC minute of the hour of an instant. -/
def utc_minute (tp : Int) : Int := tp % 3600000000000 / 60000000000

/-- The UTC second of the minute of an instant. -/
def utc_second (tp : Int) : Int := tp % 60000000000 / 1000000000

/-- The date suffix `_YYYY-MM-DD` of an instant, from its UTC calendar date. -/
def utc_date_suffix (tp : Int) : List Char :=
  ['_'] ++ digits4 (utc_date tp).1 ++ ['-'] ++ digits2 (utc_date tp).2.1 ++ ['-'] ++
    digits2 (utc_date tp).2.2

/-- The date and time suffix `_YYYY-MM-DD_HH-MM-SS` of an instant, from its UTC broken-down
time. -/
def utc_date_time_suffix (tp : Int) : List Char :=
  utc_date_suffix tp ++ ['_'] ++ digits2 (utc_hour tp) ++ ['-'] ++ digits2 (utc_minute tp) ++
    ['-'] ++ digits2 (utc_second tp)

/-- A host whose clock reads `now` and whose local time zone is UTC. -/
def utc_host (now : Int) : Env := { now := now, localtime_rs := gmtime_rs }

/-! ## Best-effort file operations -/

/-- `std::error_code`: its value, zero when the operation succeeded, and its message. -/
structure ErrorCode where
  value : Int
  message : List Char

/-- What one call of `::fopen` leaves behind: whether a stream was returned, and `errno` with
its `strerror` text. -/
structure FopenResult where
  ok : Bool
  errno : Int
  strerror : List Char

/-- `os << path`: the pathname between double quotes, a backslash put before every double
quote and every backslash inside it. -/
def put_path (p : fs.Path) : List Char :=
  let body := p.foldr
    (fun c acc => if c = Char.ofNat 34 ∨ c = Char.ofNat 92 then Char.ofNat 92 :: c :: acc
      else c :: acc) []
  Char.ofNat 34 :: body ++ [Char.ofNat 34]

namespace detail

/-- `open_file`: `::fopen` with the given mode; `QUILL_THROW` of a `QuillError` when no stream
was returned. The stream itself is not modelled. -/
def open_file (fopen : fs.Path → List Char → FopenResult) (filename : fs.Path)
    (mode : List Char) : Except QuillError Unit :=
  let r := fopen filename mode
  if r.ok then Except.ok ()
  else
    Except.error
      { what := "fopen for \"".toList ++ put_path filename ++ "\" mode \"".toList ++ mode ++
          "\" failed with error message errno: \"".toList ++ put_int r.errno ++
          "\" ".toList ++ r.strerror }

/-- `remove_file`: `fs::remove` with an error code; on an error, a line on `std::cerr` and
`false`; otherwise `true`. The result is the returned value and the text sent to `std::cerr`.
`fs_remove` stands for the file system. -/
def remove_file (fs_remove : fs.Path → ErrorCode) (filename : fs.Path) : Bool × List Char :=
  let ec := fs_remove filename
  if ec.value ≠ 0 then
    (false, "Failed to remove file \"".toList ++ put_path filename ++ "\" error: ".toList ++
      ec.message ++ [Char.ofNat 10])
  else (true, [])

/-- `rename_file`: `fs::rename` with an error code; on an error, a line on `std::cerr` and
`false`; otherwise `true`. -/
def rename_file (fs_rename : fs.Path → fs.Path → ErrorCode) (previous_file new_file : fs.Path) :
    Bool × List Char :=
  let ec := fs_rename previous_file new_file
  if ec.value ≠ 0 then
    (false, "Failed to rename file from \"".toList ++ put_path previous_file ++
      "\" to \"".toList ++ put_path new_file ++ "\" error: ".toList ++ ec.message ++
      [Char.ofNat 10])
  else (true, [])

end detail

/-- The broken-down time `append_date_to_filename` works with, before any zeroing: that of
the timestamp, or of the current time for the zero timestamp, in the chosen time zone. -/
def broken_down_time (env : Env) (timestamp : Int) (timezone : Timezone) : Tm :=
  let ts_now := if timestamp = 0 then env.now else timestamp
  if timezone = Timezone.GmtTime then gmtime_rs (to_time_t ts_now)
  else env.localtime_rs (to_time_t ts_now)

/-- The date fields of a name, `YYYY-MM-DD`, as the stream renders them: the year in a
zero-filled width of 4, the month (from 1) and the day in a zero-filled width of 2. -/
def date_fields (tm : Tm) : List Char :=
  put_int_w '0' 4 (tm.tm_year + 1900) ++ ['-'] ++ put_int_w '0' 2 (tm.tm_mon + 1) ++ ['-'] ++
    put_int_w '0' 2 tm.tm_mday

/-- The time fields of a name, `HH-MM-SS`, each in a zero-filled width of 2, with `00` for the
minutes when `zm` is set and `00` for the seconds when `zs` is set. -/
def time_fields (tm : Tm) (zm zs : Bool) : List Char :=
  put_int_w '0' 2 tm.tm_hour ++ ['-'] ++
    (if zm then ['0', '0'] else put_int_w '0' 2 tm.tm_min) ++ ['-'] ++
    (if zs then ['0', '0'] else put_int_w '0' 2 tm.tm_sec)

/-- Lexicographic comparison `a ≤ b` of two strings by character code, as `std::string`
orders them: the first position where they differ decides, and a string comes before its
extensions. -/
def lex_le : List Char → List Char → Bool
  | [], _ => true
  | _ :: _, [] => false
  | a :: as, b :: bs =>
    if a.toNat < b.toNat then true
    else if b.toNat < a.toNat then false
    else lex_le as bs

/-- The year, month and day of a day number as one number `YYYYMMDD`. -/
def day_key (days : Int) : Int :=
  (civil_from_days days).1 * 10000 + (civil_from_days days).2.1 * 100 +
    (civil_from_days days).2.2

/-- Chronological order of two broken-down times, field by field from the year to the
second. -/
def fields_le (a b : Tm) : Prop :=
  a.tm_year + 1900 < b.tm_year + 1900 ∨ (a.tm_year + 1900 = b.tm_year + 1900 ∧
    (a.tm_mon + 1 < b.tm_mon + 1 ∨ (a.tm_mon + 1 = b.tm_mon + 1 ∧
      (a.tm_mday < b.tm_mday ∨ (a.tm_mday = b.tm_mday ∧
        (a.tm_hour < b.tm_hour ∨ (a.tm_hour = b.tm_hour ∧
          (a.tm_min < b.tm_min ∨ (a.tm_min = b.tm_min ∧ a.tm_sec ≤ b.tm_sec)))))))))

/-- The fields of a broken-down time are those of a date with a four-digit year: year from
1000 to 9999, month from 1 to 12, day from 1 to 31, and a time of the day. -/
def fields_in_range (tm : Tm) : Prop :=
  (1000 ≤ tm.tm_year + 1900 ∧ tm.tm_year + 1900 ≤ 9999) ∧
    (1 ≤ tm.tm_mon + 1 ∧ tm.tm_mon + 1 ≤ 12) ∧
    (1 ≤ tm.tm_mday ∧ tm.tm_mday ≤ 31) ∧
    (0 ≤ tm.tm_hour ∧ tm.tm_hour ≤ 23) ∧
    (0 ≤ tm.tm_min ∧ tm.tm_min ≤ 59) ∧
    (0 ≤ tm.tm_sec ∧ tm.tm_sec ≤ 59)

/-! ## The time-rotating file handler (`handlers/TimeRotatingFileHandler.h`)

The header declares the data members and the member functions; the bodies of the member
functions are not part of the sources at hand and follow the specification (sections 3, 4.1
and 4.4). -/

/-- The rotation modes `_when` stands for: `"M"`, `"H"` and `"daily"`. -/
inductive When where
  | Minutely
  | Hourly
  | Daily
  deriving DecidableEq, Repr

/-- The data members of `TimeRotatingFileHandler`, with the file name it inherits from
`FileHandler`: the name of the file that is open. `_created_files` is in insertion order,
oldest first; `_current_size` starts at 0. -/
structure TimeRotatingFileHandler where
  _filename : fs.Path
  _created_files : List (Nat × fs.Path)
  _when : When
  _file_creation_time : Int
  _next_rotation_time : Int
  _max_bytes : Nat
  _current_size : Nat
  _interval : Nat
  _backup_count : Nat
  _using_timezone : Timezone

/-- What the file system answers during one call of `write`. -/
structure FsOutcome where
  rename : fs.Path → fs.Path → ErrorCode
  remove : fs.Path → ErrorCode
  fopen : fs.Path → List Char → FopenResult
  fwrite : Nat → Nat → FwriteResult

/-- What one call of `write` leaves: the handler, the paths given to `remove_file` in the
order of the calls, what was sent to `std::cerr`, and the error raised, if any. -/
structure WriteResult where
  handler : TimeRotatingFileHandler
  removed : List fs.Path
  cerr : List Char
  error : Option QuillError

/-- The time between two rotation deadlines, in nanoseconds: `interval` minutes, `interval`
hours, or 24 hours. -/
def rotation_period (when : When) (interval : Nat) : Int :=
  match when with
  | When.Minutely => (interval : Int) * 60000000000
  | When.Hourly => (interval : Int) * 3600000000000
  | When.Daily => 86400000000000

namespace TimeRotatingFileHandler

/-- Modelled from the spec: `_calculate_rotation_tp`, whose body is absent.
"Minutely/Hourly: deadline = previous deadline + interval minutes/hours"; "Daily: ...
exactly 24h apart". -/
def _calculate_rotation_tp (time_now : Int) (when : When) (interval : Nat) : Int :=
  match when with
  | When.Minutely => time_now + (interval : Int) * 60000000000
  | When.Hourly => time_now + (interval : Int) * 3600000000000
  | When.Daily => time_now + 86400000000000

/-- Modelled from the spec: the index of the next size rotation, "one past the highest index
already used for the current date bucket"; the bucket is made of the files created since the
last time rotation, whose entry has index 0 ("index 0 is reserved for no suffix"). -/
def next_index (created_files : List (Nat × fs.Path)) : Nat :=
  ((created_files.reverse.takeWhile (fun e => e.1 != 0)).foldl (fun m e => max m e.1) 0) + 1

/-- Modelled from the spec: eviction, "while `backupCount > 0` and retained-file count
exceeds `backupCount`, pop the oldest RetainedFile and `remove` its path". The result is
the entries popped, in the order of the pops, and the entries kept. -/
def evict (backup_count : Nat) :
    List (Nat × fs.Path) → List (Nat × fs.Path) × List (Nat × fs.Path)
  | [] => ([], [])
  | f :: rest =>
    if 0 < backup_count ∧ backup_count < (f :: rest).length then
      ((f :: (evict backup_count rest).1), (evict backup_count rest).2)
    else ([], f :: rest)

/-- Modelled from the spec: `_rotate_files`, whose body is absent (section 4.4, step 3):
"close current handle; compute the target name for the just-closed file ...; rename the
just-closed physical file from its working name to this target name; open a fresh handle at
the original base working name; push the new RetainedFile entry; reset `currentSizeBytes` to
0 and `currentFileCreationTime` to `ts`". A failed rename is reported on `std::cerr` and
swallowed, a failed open is fatal (`open_file` throws). The result is the handler and the
text sent to `std::cerr`. -/
def _rotate_files (io : FsOutcome) (h : TimeRotatingFileHandler) (index : Nat)
    (target : fs.Path) (ts : Int) : Except QuillError (TimeRotatingFileHandler × List Char) :=
  let renamed := detail.rename_file io.rename h._filename target
  match detail.open_file io.fopen h._filename ['w'] with
  | Except.error e => Except.error e
  | Except.ok _ =>
    Except.ok
      ({ h with
          _created_files := h._created_files ++ [(index, target)]
          _current_size := 0
          _file_creation_time := ts }, renamed.2)

/-- Modelled from the spec: `_time_rotation`, whose body is absent (section 4.4, step 1):
"if time-based rotation is enabled and `ts >= nextRotationDeadline`, rotate for time. The
new deadline is recomputed from `nextRotationDeadline` (not from `ts`)". The rotated file
gets the date-stamped name of its creation time, with the time for the modes other than
daily. The result tells whether a rotation took place. -/
def _time_rotation (env : Env) (io : FsOutcome) (h : TimeRotatingFileHandler) (log_msg_ts : Int) :
    Except QuillError (Bool × TimeRotatingFileHandler × List Char) :=
  if h._next_rotation_time ≤ log_msg_ts then
    let target := detail.append_date_to_filename env h._filename h._file_creation_time
      (h._when != When.Daily) h._using_timezone (h._when == When.Hourly) true
    match _rotate_files io h 0 target log_msg_ts with
    | Except.error e => Except.error e
    | Except.ok (h₁, cerr) =>
      Except.ok (true,
        { h₁ with _next_rotation_time :=
            _calculate_rotation_tp h._next_rotation_time h._when h._interval }, cerr)
  else Except.ok (false, h, [])

/-- Modelled from the spec: `_size_rotation`, whose body is absent (section 4.4, step 2):
"if `currentSizeBytes + n > maxBytes`, rotate for size", the rotated file getting the
index-suffixed name. -/
def _size_rotation (io : FsOutcome) (h : TimeRotatingFileHandler) (log_msg_size : Nat)
    (log_msg_ts : Int) : Except QuillError (TimeRotatingFileHandler × List Char) :=
  if h._max_bytes < h._current_size + log_msg_size then
    _rotate_files io h (next_index h._created_files)
      (detail.append_index_to_filename h._filename (next_index h._created_files)) log_msg_ts
  else Except.ok (h, [])

/-- Modelled from the spec: `write`, whose body is absent (section 4.4): the time check; the
size check "only if time rotation did not just fire in this step" and if `maxBytes > 0`; the
eviction, whose failures "are non-fatal and do not block the write"; then the write of the
`log_msg_size` bytes, which is fatal when it fails, and `currentSizeBytes += n`. -/
def write (env : Env) (io : FsOutcome) (h : TimeRotatingFileHandler) (log_msg_size : Nat)
    (log_msg_ts : Int) : WriteResult :=
  let rotated : Except QuillError (TimeRotatingFileHandler × List Char) :=
    match _time_rotation env io h log_msg_ts with
    | Except.error e => Except.error e
    | Except.ok (true, h₁, cerr) => Except.ok (h₁, cerr)
    | Except.ok (false, h₁, cerr) =>
      if 0 < h₁._max_bytes then _size_rotation io h₁ log_msg_size log_msg_ts
      else Except.ok (h₁, cerr)
  match rotated with
  | Except.error e => { handler := h, removed := [], cerr := [], error := some e }
  | Except.ok (h₁, cerr) =>
    let popped := (evict h₁._backup_count h₁._created_files).1
    let h₂ := { h₁ with _created_files := (evict h₁._backup_count h₁._created_files).2 }
    let cerr₂ := popped.foldl (fun acc e => acc ++ (detail.remove_file io.remove e.2).2) cerr
    match detail.fwrite_fully io.fwrite 1 log_msg_size with
    | Except.error e =>
      { handler := h₂, removed := popped.map (fun e => e.2), cerr := cerr₂, error := some e }
    | Except.ok _ =>
      { handler := { h₂ with _current_size := h₂._current_size + log_msg_size }
        removed := popped.map (fun e => e.2), cerr := cerr₂, error := none }

/-- One write request: the host, the answers of the file system, the number of bytes and
the timestamp. -/
structure Request where
  env : Env
  io : FsOutcome
  size : Nat
  timestamp : Int

/-- The handler after a sequence of write requests, served in order. -/
def run (h : TimeRotatingFileHandler) : List Request → TimeRotatingFileHandler
  | [] => h
  | r :: rest => run (write r.env r.io h r.size r.timestamp).handler rest

end TimeRotatingFileHandler

/-- A file system on which every operation succeeds. -/
def fs_ok : FsOutcome :=
  { rename := fun _ _ => { value := 0, message := [] }
    remove := fun _ => { value := 0, message := [] }
    fopen := fun _ _ => { ok := true, errno := 0, strerror := [] }
    fwrite := fun _ count => { written := count, errno := 0, strerror := [] } }

/-- A handler for `app.log` with `max_bytes = 1000` and `backup_count = 2`, rotating daily
under UTC, just after its construction on 2024-01-15 at 08:00:00. -/
def app_log_handler : TimeRotatingFileHandler :=
  { _filename := "app.log".toList
    _created_files := []
    _when := When.Daily
    _file_creation_time := 1705305600000000000
    _next_rotation_time := 1705363200000000000
    _max_bytes := 1000
    _current_size := 0
    _interval := 1
    _backup_count := 2
    _using_timezone := Timezone.GmtTime }


end quill


/-! ## Decimal rendering -/

namespace quill

open detail

theorem decimal_of_lt_ten {n : Nat} (h0 : 0 < n) (h : n < 10) : decimal n = [Nat.digitChar n] := by
  unfold decimal
  rw [Nat.digits_of_lt 10 n (by omega) h]
  rfl

theorem decimal_step {n : Nat} (h : 10 ≤ n) :
    decimal n = decimal (n / 10) ++ [Nat.digitChar (n % 10)] := by
  unfold decimal
  rw [Nat.digits_def' (by norm_num) (by omega)]
  simp

theorem put_digits_eq_decimal (fuel : Nat) :
    ∀ (n : Nat) (acc : List Char), 0 < n → n < fuel → put_digits fuel n acc = decimal n ++ acc := by
  induction fuel with
  | zero => intro n acc _ h; omega
  | succ fuel ih =>
    intro n acc h0 hlt
    unfold put_digits
    by_cases h : n < 10
    · rw [if_pos h, decimal_of_lt_ten h0 h]; rfl
    · rw [if_neg h, ih (n / 10) _ (by omega) (by omega), decimal_step (n := n) (by omega)]
      simp

theorem put_unsigned_eq_decimal {n : Nat} (h : 0 < n) : put_unsigned n = decimal n := by
  unfold put_unsigned
  rw [put_digits_eq_decimal (n + 1) n [] h (by omega)]
  simp

theorem put_unsigned_zero : put_unsigned 0 = ['0'] := by decide

theorem toDigitsCore_eq_decimal (fuel : Nat) :
    ∀ (n : Nat) (acc : List Char), 0 < n → n < fuel →
      Nat.toDigitsCore 10 fuel n acc = decimal n ++ acc := by
  induction fuel with
  | zero => intro n acc _ h; omega
  | succ fuel ih =>
    intro n acc h0 hlt
    unfold Nat.toDigitsCore
    by_cases h : n / 10 = 0
    · have h10 : n < 10 := by omega
      simp only [h, if_true]
      rw [decimal_of_lt_ten h0 h10, Nat.mod_eq_of_lt h10]; rfl
    · simp only [h, if_false]
      rw [ih (n / 10) _ (by omega) (by omega), decimal_step (n := n) (by omega)]
      simp

theorem decimal_eq_repr {n : Nat} (h : 0 < n) : decimal n = (Nat.repr n).toList := by
  unfold Nat.repr Nat.toDigits
  rw [toDigitsCore_eq_decimal (n + 1) n [] h (by omega), List.append_nil]
  exact (List.toList_asString _).symm

theorem digitVal_digitChar {d : Nat} (h : d < 10) : digitVal (Nat.digitChar d) = d := by
  interval_cases d <;> rfl

theorem decimal_injective {j k : Nat} (h : decimal j = decimal k) : j = k := by
  have hmap : ∀ n : Nat, (decimal n).map digitVal = (Nat.digits 10 n).reverse := by
    intro n
    unfold decimal
    rw [List.map_map]
    conv_rhs => rw [← List.map_id (Nat.digits 10 n).reverse]
    apply List.map_congr_left
    intro d hd
    have : d < 10 := Nat.digits_lt_base (by norm_num) (List.mem_reverse.mp hd)
    simp [digitVal_digitChar this]
  have h2 : (Nat.digits 10 j).reverse = (Nat.digits 10 k).reverse := by
    rw [← hmap j, ← hmap k, h]
  exact Nat.digits.injective 10 (List.reverse_injective h2)

theorem decimal_head_ne_zero (k : Nat) : (decimal k).head? ≠ some '0' := by
  intro h
  by_cases hk : k = 0
  · subst hk; simp [decimal] at h
  · have hne := Nat.getLast_digit_ne_zero 10 hk
    have hnil : Nat.digits 10 k ≠ [] := Nat.digits_ne_nil_iff_ne_zero.mpr hk
    unfold decimal at h
    rw [List.head?_map, List.head?_reverse, List.getLast?_eq_getLast _ hnil] at h
    simp only [Option.map_some', Option.some.injEq] at h
    have hlt : (Nat.digits 10 k).getLast hnil < 10 :=
      Nat.digits_lt_base (by norm_num) (List.getLast_mem hnil)
    have := digitVal_digitChar hlt
    rw [h] at this
    exact hne this.symm

/-! ## Digit grouping -/

theorem group_digits_of_ungrouped (np : Numpunct) (ds : List Char)
    (h : ungrouped np ds.length) : group_digits np ds = ds := by
  unfold group_digits
  cases hlen : ds.length with
  | zero =>
    have hnil : ds = [] := List.length_eq_zero.mp hlen
    subst hnil
    rfl
  | succ m =>
    unfold insert_separators
    unfold ungrouped at h
    rw [hlen] at h
    rw [if_pos (by rw [List.length_reverse, hlen]; exact h), List.reverse_reverse]

theorem ungrouped_mono {np : Numpunct} {a b : Nat} (hab : a ≤ b) (h : ungrouped np b) :
    ungrouped np a := by
  unfold ungrouped at h ⊢
  omega

theorem put_unsigned_loc_of_ungrouped (np : Numpunct) (n : Nat)
    (h : ungrouped np (put_unsigned n).length) : put_unsigned_loc np n = put_unsigned n :=
  group_digits_of_ungrouped np _ h

theorem ungrouped_classic (len : Nat) : ungrouped classic_numpunct len := Or.inl rfl

theorem put_unsigned_loc_classic (n : Nat) :
    put_unsigned_loc classic_numpunct n = put_unsigned n :=
  put_unsigned_loc_of_ungrouped classic_numpunct n (ungrouped_classic _)

theorem put_int_w_loc_classic (fill : Char) (w : Nat) (n : Int) :
    put_int_w_loc classic_numpunct fill w n = put_int_w fill w n := by
  unfold put_int_w_loc put_int_w put_int_loc put_int
  simp only [put_unsigned_loc_classic]

/-- Under the classic locale, which is the global locale of a program that never sets one,
the locale-aware index suffix is `append_index_to_filename`. -/
theorem append_index_to_filename_loc_classic (path : fs.Path) (k : Nat) :
    append_index_to_filename_loc classic_numpunct path k = append_index_to_filename path k := by
  unfold append_index_to_filename_loc append_index_to_filename
  simp only [put_unsigned_loc_classic]

/-- Under the classic locale, the locale-aware date suffix is `append_date_to_filename`. -/
theorem append_date_to_filename_loc_classic (env : Env) (path : fs.Path) (tp : Int)
    (at_time : Bool) (tz : Timezone) (zm zs : Bool) :
    append_date_to_filename_loc classic_numpunct env path tp at_time tz zm zs =
      append_date_to_filename env path tp at_time tz zm zs := by
  unfold append_date_to_filename_loc append_date_to_filename
  simp only [put_int_w_loc_classic]

/-! ## Index suffix -/

/-- C1, as stated, fails: when the global locale groups digits by three with a comma, the
index 1000 is written `1,000`, which is not the base-10 rendering of 1000. -/
theorem append_index_grouped_by_locale :
    (1 : Nat) ≤ 1000 ∧
      append_index_to_filename_loc comma_numpunct "app.log".toList 1000 =
        "app.1,000.log".toList ∧
      put_unsigned 1000 = "1000".toList ∧
      append_index_to_filename_loc comma_numpunct "app.log".toList 1000 ≠
        (extract_stem_and_extension "app.log".toList).1 ++ ['.'] ++ put_unsigned 1000 ++
          (extract_stem_and_extension "app.log".toList).2 := by
  decide

/-- C1, amended: for every path and every index `k ≥ 1`, under a global locale that puts no
group separator into a number with as many digits as `k` (no grouping, as in the classic
locale, or a first group at least that long), `append_index_to_filename path k` is the stem,
a period, the base-10 rendering of `k` and the extension, where the stem and the extension
are those of `extract_stem_and_extension path`; the rendering of `k` is the ordinary one (it
is what `Nat.repr` gives), is not empty and has no leading zero. -/
theorem append_index_to_filename_loc_format (np : Numpunct) (path : fs.Path) (k : Nat)
    (hk : 1 ≤ k) (hg : ungrouped np (decimal k).length) :
    append_index_to_filename_loc np path k =
        (extract_stem_and_extension path).1 ++ ['.'] ++ decimal k ++
          (extract_stem_and_extension path).2 ∧
      decimal k = (Nat.repr k).toList ∧ decimal k ≠ [] ∧ (decimal k).head? ≠ some '0' := by
  refine ⟨?_, decimal_eq_repr (by omega), ?_, decimal_head_ne_zero k⟩
  · unfold append_index_to_filename_loc
    rw [if_neg (by omega), put_unsigned_loc_of_ungrouped np k
      (by rw [put_unsigned_eq_decimal (by omega)]; exact hg),
      put_unsigned_eq_decimal (by omega)]
  · intro h
    have h1 : decimal k = decimal 0 := by rw [h]; simp [decimal]
    have := decimal_injective h1
    omega

theorem append_index_to_filename_loc_format_witness :
    ungrouped comma_numpunct (decimal 12).length ∧
      append_index_to_filename_loc comma_numpunct "logs/app.log".toList 12 =
        (extract_stem_and_extension "logs/app.log".toList).1 ++ ['.'] ++ decimal 12 ++
          (extract_stem_and_extension "logs/app.log".toList).2 :=
  ⟨by rw [← put_unsigned_eq_decimal (by decide)]; decide,
    (append_index_to_filename_loc_format comma_numpunct "logs/app.log".toList 12 (by decide)
      (by rw [← put_unsigned_eq_decimal (by decide)]; decide)).1⟩

/-- C2: for every path, `append_index_to_filename path 0` is the path itself. -/
theorem append_index_to_filename_zero (path : fs.Path) :
    append_index_to_filename path 0 = path := by
  simp [append_index_to_filename]

/-- C3: for a fixed path and 32-bit unsigned indices `j, k ≥ 1`, equal index-suffixed names
come from equal indices. -/
theorem append_index_to_filename_injective (path : fs.Path) (j k : Nat)
    (hj : 1 ≤ j) (hk : 1 ≤ k) (hj32 : j < 4294967296) (hk32 : k < 4294967296)
    (h : append_index_to_filename path j = append_index_to_filename path k) : j = k := by
  unfold append_index_to_filename at h
  rw [if_neg (by omega), if_neg (by omega), put_unsigned_eq_decimal (by omega),
    put_unsigned_eq_decimal (by omega)] at h
  have h1 := List.append_cancel_right h
  have h2 := List.append_cancel_left h1
  exact decimal_injective h2

theorem append_index_to_filename_injective_witness :
    append_index_to_filename "app.log".toList 7 = append_index_to_filename "app.log".toList 7 ∧
      7 = 7 :=
  ⟨rfl, append_index_to_filename_injective "app.log".toList 7 7 (by decide) (by decide)
    (by decide) (by decide) rfl⟩

/-- C9, as stated, fails: the index-suffixed names of `app.log` for the indices 1 and 2 are not
`app.log.1` and `app.log.2`. -/
theorem append_index_app_log_not_trailing :
    ¬ (append_index_to_filename "app.log".toList 1 = "app.log.1".toList ∧
        append_index_to_filename "app.log".toList 2 = "app.log.2".toList) := by
  decide

/-- C9, amended: the index goes between the stem and the extension, so the index-suffixed
name of `app.log` is `app.1.log` for index 1 and `app.2.log` for index 2. -/
theorem append_index_app_log :
    append_index_to_filename "app.log".toList 1 = "app.1.log".toList ∧
      append_index_to_filename "app.log".toList 2 = "app.2.log".toList := by
  decide

/-! ## Path decomposition -/

theorem dropWhile_head_false {p : Char → Bool} :
    ∀ {l : List Char} {c : Char} {rest : List Char}, l.dropWhile p = c :: rest → p c = false := by
  intro l
  induction l with
  | nil => intro c rest h; simp at h
  | cons a l ih =>
    intro c rest h
    by_cases ha : p a
    · rw [List.dropWhile_cons_of_pos ha] at h; exact ih h
    · rw [List.dropWhile_cons_of_neg ha] at h
      cases h
      simpa using ha

/-- The pathname is its part up to the last separator followed by its filename. -/
theorem dir_append_filename (p : fs.Path) :
    (p.reverse.dropWhile (fun c => c != fs.sep)).reverse ++ fs.filename p = p := by
  unfold fs.filename
  rw [← List.reverse_append, List.takeWhile_append_dropWhile, List.reverse_reverse]

theorem filename_no_sep (p : fs.Path) : fs.sep ∉ fs.filename p := by
  unfold fs.filename
  intro h
  have := List.mem_takeWhile_imp (List.mem_reverse.mp h)
  simp at this

/-- The extension is a suffix of the filename. -/
theorem extension_suffix (p : fs.Path) : fs.extension p <:+ fs.filename p := by
  unfold fs.extension
  simp only
  split_ifs with h
  · exact List.nil_suffix
  · split
    · exact List.nil_suffix
    · rename_i c before hd
      split_ifs
      · exact List.nil_suffix
      · have hc : c = '.' := by
          have := dropWhile_head_false hd
          simpa using this
        subst hc
        refine ⟨before.reverse, ?_⟩
        have h2 := List.takeWhile_append_dropWhile (fun c => c != '.') (fs.filename p).reverse
        rw [hd] at h2
        have h3 := congrArg List.reverse h2
        rw [List.reverse_reverse] at h3
        rw [List.reverse_append, List.reverse_cons, List.append_assoc] at h3
        exact h3

theorem stem_append_extension (p : fs.Path) : fs.stem p ++ fs.extension p = fs.filename p := by
  obtain ⟨t, ht⟩ := extension_suffix p
  unfold fs.stem
  simp only
  have hlen : (fs.filename p).length - (fs.extension p).length = t.length := by
    rw [← ht]; simp
  rw [hlen]
  conv_lhs => rw [← ht]
  rw [List.take_left']
  · exact ht
  · rfl

theorem stem_no_sep (p : fs.Path) : fs.sep ∉ fs.stem p := by
  intro h
  apply filename_no_sep p
  rw [← stem_append_extension p]
  exact List.mem_append_left _ h

theorem not_is_absolute_of_no_sep {s : fs.Path} (h : fs.sep ∉ s) : fs.is_absolute s = false := by
  cases s with
  | nil => rfl
  | cons c cs =>
    simp only [fs.is_absolute]
    have : c ≠ fs.sep := fun hc => h (by rw [hc]; exact List.mem_cons_self _ _)
    simpa using this

theorem takeWhile_nil_of_all_false {p : Char → Bool} {l : List Char}
    (h : ∀ x ∈ l, p x = false) : l.takeWhile p = [] := by
  cases l with
  | nil => rfl
  | cons a l =>
    have ha : ¬ p a = true := by rw [h a (List.mem_cons_self _ _)]; simp
    exact List.takeWhile_cons_of_neg ha

theorem filename_nil_of_no_relative_path {p : fs.Path} (h : fs.has_relative_path p = false) :
    fs.filename p = [] := by
  unfold fs.filename
  rw [takeWhile_nil_of_all_false]
  · rfl
  · intro x hx
    unfold fs.has_relative_path at h
    rw [List.any_eq_false] at h
    have := h x (List.mem_reverse.mp hx)
    simpa using this

theorem append_stem (lhs : fs.Path) (p : fs.Path) :
    fs.append lhs (fs.stem p) =
      if fs.has_filename lhs then lhs ++ fs.sep :: fs.stem p else lhs ++ fs.stem p := by
  unfold fs.append
  rw [not_is_absolute_of_no_sep (stem_no_sep p)]
  simp

/-- Splitting a pathname without repeated separators and gluing the two parts gives it back. -/
theorem extract_append_eq (p : fs.Path) (h : ¬ [fs.sep, fs.sep] <:+: p) :
    (detail.extract_stem_and_extension p).1 ++ (detail.extract_stem_and_extension p).2 = p := by
  unfold detail.extract_stem_and_extension
  simp only
  rw [append_stem]
  have hdir := dir_append_filename p
  have hse := stem_append_extension p
  by_cases hrel : fs.has_relative_path p = true
  · unfold fs.parent_path
    simp only [hrel, Bool.not_true, Bool.false_eq_true, if_false]
    cases hd : p.reverse.dropWhile (fun c => c != fs.sep) with
    | nil =>
      rw [hd] at hdir
      have hnf : fs.has_filename [] = false := by decide
      simp only [List.isEmpty_nil, if_true, hnf, Bool.false_eq_true, if_false]
      rw [List.nil_append, hse]
      simpa using hdir
    | cons c rest =>
      have hc : c = fs.sep := by
        have := dropWhile_head_false hd
        simpa using this
      subst hc
      rw [hd] at hdir
      cases rest with
      | nil =>
        have hnf : fs.has_filename [fs.sep] = false := by decide
        have hb : List.dropWhile (fun c => c == fs.sep) [fs.sep] = [] := by decide
        simp only [hb, List.isEmpty_cons, List.isEmpty_nil, if_true, Bool.false_eq_true,
          if_false, hnf]
        rw [List.append_assoc, hse]
        exact hdir
      | cons d rest =>
        have hdne : d ≠ fs.sep := by
          intro hds
          subst hds
          apply h
          rw [← hdir]
          apply List.IsInfix.trans _ (List.infix_append' [] _ _)
          rw [← List.reverse_infix, List.reverse_reverse]
          exact ⟨[], rest, rfl⟩
        have hb : List.dropWhile (fun c => c == fs.sep) (fs.sep :: d :: rest) = d :: rest := by
          rw [List.dropWhile_cons_of_pos (by simp), List.dropWhile_cons_of_neg (by simpa using hdne)]
        have hf : fs.has_filename (d :: rest).reverse = true := by
          unfold fs.has_filename fs.filename
          rw [List.reverse_reverse, List.takeWhile_cons_of_pos (by simpa using hdne)]
          simp
        simp only [hb, List.isEmpty_cons, Bool.false_eq_true, if_false, hf, if_true]
        rw [List.append_assoc, List.cons_append, hse]
        conv_rhs => rw [← hdir]
        simp
  · have hrel2 : fs.has_relative_path p = false := by simpa using hrel
    have hfn := filename_nil_of_no_relative_path hrel2
    unfold fs.parent_path
    simp only [hrel2, Bool.not_false, if_true]
    have hnf : fs.has_filename p = false := by
      unfold fs.has_filename; rw [hfn]; rfl
    simp only [hnf, Bool.false_eq_true, if_false]
    rw [List.append_assoc, hse, hfn, List.append_nil]

theorem extension_of_last_dot (path : fs.Path) (name ext : List Char)
    (hf : fs.filename path = name ++ '.' :: ext) (hname : name ≠ []) (hdot : '.' ∉ ext)
    (hspecial : fs.filename path ≠ ['.', '.']) : fs.extension path = '.' :: ext := by
  unfold fs.extension
  simp only
  have h1 : ¬ (fs.filename path = ['.'] ∨ fs.filename path = ['.', '.']) := by
    rintro (h | h)
    · rw [hf] at h
      cases name with
      | nil => exact hname rfl
      | cons a t =>
        have := congrArg List.length h
        simp at this
    · exact hspecial h
  rw [if_neg h1, hf]
  have hr : (name ++ '.' :: ext).reverse = ext.reverse ++ '.' :: name.reverse := by simp
  have hall : ∀ a ∈ ext.reverse, (fun c => c != '.') a = true := by
    intro a ha
    have : a ≠ '.' := fun e => hdot (by rw [← e]; exact List.mem_reverse.mp ha)
    simpa using this
  rw [hr, List.takeWhile_append_of_pos hall, List.dropWhile_append_of_pos hall,
    List.takeWhile_cons_of_neg (by simp), List.dropWhile_cons_of_neg (by simp)]
  have hne : name.reverse.isEmpty = false := by
    cases name with
    | nil => exact absurd rfl hname
    | cons a t => simp
  simp [hne]

/-! ## Stem and extension -/

/-- C6, as stated, fails: `logs//app.log` has a single period, and gluing its stem and its
extension gives `logs/app.log`, which is another string. -/
theorem extract_round_trip_fails_on_repeated_separator :
    "logs//app.log".toList.count '.' ≤ 1 ∧
      (extract_stem_and_extension "logs//app.log".toList).1 ++
          (extract_stem_and_extension "logs//app.log".toList).2 = "logs/app.log".toList ∧
      (extract_stem_and_extension "logs//app.log".toList).1 ++
          (extract_stem_and_extension "logs//app.log".toList).2 ≠ "logs//app.log".toList := by
  decide

/-- C6, amended: for every path in which no separator is directly followed by another one,
the stem and the extension returned by `extract_stem_and_extension`, glued, give the path back
(whatever the number of periods, with or without a directory part, an extension or a leading
period). -/
theorem extract_round_trip (path : fs.Path) (h : ¬ [fs.sep, fs.sep] <:+: path) :
    (extract_stem_and_extension path).1 ++ (extract_stem_and_extension path).2 = path :=
  extract_append_eq path h

theorem extract_round_trip_witness :
    (¬ [fs.sep, fs.sep] <:+: "/var/log/.hidden".toList) ∧
      (extract_stem_and_extension "/var/log/.hidden".toList).1 ++
        (extract_stem_and_extension "/var/log/.hidden".toList).2 = "/var/log/.hidden".toList :=
  ⟨by decide, extract_round_trip "/var/log/.hidden".toList (by decide)⟩

/-- C7, as stated, fails: the filename `..` is `.` followed by a period and an empty rest, and
its extension is empty, not a period. -/
theorem extract_dot_dot_has_no_extension :
    fs.filename "..".toList = ".".toList ++ '.' :: [] ∧ ".".toList ≠ [] ∧
      '.' ∉ ([] : List Char) ∧ '/' ∉ ([] : List Char) ∧
      extract_stem_and_extension "..".toList = ("..".toList, []) ∧
      (extract_stem_and_extension "..".toList).2 ≠ '.' :: [] := by
  decide

/-- C7, amended: for every path whose filename is `name ++ "." ++ ext` with `name` not empty
and `ext` free of periods and separators, and whose filename is not the special element `..`,
`extract_stem_and_extension` returns the extension `"." ++ ext` and the stem
`parent_path / name`; when no separator of the path is directly followed by another one, the
stem is the path up to that last period. -/
theorem extract_splits_at_last_dot (path : fs.Path) (name ext : List Char)
    (hf : fs.filename path = name ++ '.' :: ext) (hname : name ≠ [])
    (hdot : '.' ∉ ext) (_hsep : '/' ∉ ext) (hspecial : fs.filename path ≠ ['.', '.']) :
    (extract_stem_and_extension path).2 = '.' :: ext ∧
      (extract_stem_and_extension path).1 = fs.append (fs.parent_path path) name ∧
      (¬ [fs.sep, fs.sep] <:+: path →
        (extract_stem_and_extension path).1 ++ '.' :: ext = path) := by
  have hext : fs.extension path = '.' :: ext :=
    extension_of_last_dot path name ext hf hname hdot hspecial
  have hstem : fs.stem path = name := by
    have h := stem_append_extension path
    rw [hext, hf] at h
    exact List.append_cancel_right h
  refine ⟨hext, ?_, ?_⟩
  · unfold extract_stem_and_extension
    rw [hstem]
  · intro hns
    have h := extract_append_eq path hns
    have h2 : (extract_stem_and_extension path).2 = '.' :: ext := hext
    rw [h2] at h
    exact h

theorem extract_splits_at_last_dot_witness :
    (extract_stem_and_extension "a/b.tar.gz".toList).2 = ".gz".toList ∧
      (extract_stem_and_extension "a/b.tar.gz".toList).1 =
        fs.append (fs.parent_path "a/b.tar.gz".toList) "b.tar".toList ∧
      (¬ [fs.sep, fs.sep] <:+: "a/b.tar.gz".toList →
        (extract_stem_and_extension "a/b.tar.gz".toList).1 ++ ".gz".toList =
          "a/b.tar.gz".toList) :=
  extract_splits_at_last_dot "a/b.tar.gz".toList "b.tar".toList "gz".toList
    (by decide) (by decide) (by decide) (by decide) (by decide)

/-! ## `fwrite_fully` -/

/-- C10: `fwrite_fully` ends with an error exactly when `fwrite` reports fewer objects written
than requested, and returns normally exactly when it reports at least as many. -/
theorem fwrite_fully_error_iff (fwrite : Nat → Nat → FwriteResult) (size count : Nat) :
    ((∃ e, fwrite_fully fwrite size count = Except.error e) ↔
        (fwrite size count).written < count) ∧
      (fwrite_fully fwrite size count = Except.ok () ↔
        ¬ (fwrite size count).written < count) := by
  unfold fwrite_fully
  by_cases h : (fwrite size count).written < count
  · simp [h]
  · simp [h]

/-! ## Calendar and fixed-width fields -/

theorem civil_from_days_bounds (days : Int) (hlo : -106752 ≤ days) (hhi : days ≤ 106752) :
    1000 ≤ (civil_from_days days).1 ∧ (civil_from_days days).1 ≤ 9999 ∧
    1 ≤ (civil_from_days days).2.1 ∧ (civil_from_days days).2.1 ≤ 12 ∧
    1 ≤ (civil_from_days days).2.2 ∧ (civil_from_days days).2.2 ≤ 31 := by
  unfold civil_from_days
  simp only
  split_ifs <;> omega

theorem to_time_t_eq (tp : Int) :
    to_time_t tp = if 0 ≤ tp then tp / 1000000000 else -((-tp) / 1000000000) := by
  unfold to_time_t
  split_ifs with h
  · exact Int.tdiv_eq_ediv h (by norm_num)
  · have h1 : tp = -(-tp) := by omega
    rw [h1, Int.neg_tdiv, Int.tdiv_eq_ediv (by omega) (by norm_num)]
    simp

/-- Truncation and flooring agree after the epoch and on whole seconds. -/
theorem to_time_t_eq_floor {tp : Int} (h : 0 < tp ∨ (tp ≠ 0 ∧ tp % 1000000000 = 0)) :
    to_time_t tp = tp / 1000000000 := by
  rw [to_time_t_eq]
  split_ifs <;> omega

theorem to_time_t_bounds {tp : Int} (h : representable tp) :
    -9223372036 ≤ to_time_t tp ∧ to_time_t tp ≤ 9223372036 := by
  unfold representable at h
  rw [to_time_t_eq]
  split_ifs <;> omega

theorem put_int_w_two {n : Int} (h0 : 0 ≤ n) (h1 : n ≤ 99) : put_int_w '0' 2 n = digits2 n := by
  obtain ⟨k, rfl⟩ := Int.eq_ofNat_of_zero_le h0
  have hk : k ≤ 99 := by omega
  interval_cases k <;> rfl

theorem put_unsigned_four {k : Nat} (h0 : 1000 ≤ k) (h1 : k ≤ 9999) :
    put_unsigned k = [Nat.digitChar (k / 1000), Nat.digitChar (k / 100 % 10),
      Nat.digitChar (k / 10 % 10), Nat.digitChar (k % 10)] := by
  rw [put_unsigned_eq_decimal (by omega), decimal_step (n := k) (by omega),
    decimal_step (n := k / 10) (by omega), decimal_step (n := k / 10 / 10) (by omega),
    decimal_of_lt_ten (n := k / 10 / 10 / 10) (by omega) (by omega)]
  have e1 : k / 10 / 10 / 10 = k / 1000 := by omega
  have e2 : k / 10 / 10 % 10 = k / 100 % 10 := by omega
  rw [e1, e2]
  rfl

theorem put_int_w_four {n : Int} (h0 : 1000 ≤ n) (h1 : n ≤ 9999) :
    put_int_w '0' 4 n = digits4 n := by
  obtain ⟨k, rfl⟩ := Int.eq_ofNat_of_zero_le (by omega : (0 : Int) ≤ n)
  have hk0 : 1000 ≤ k := by omega
  have hk1 : k ≤ 9999 := by omega
  unfold put_int_w put_int digits4
  have hneg : ¬ ((k : Int) < 0) := by omega
  simp only [hneg, if_false, Int.toNat_ofNat]
  rw [put_unsigned_four hk0 hk1]
  have e1 : ((k : Int) / 1000).toNat = k / 1000 := by omega
  have e2 : ((k : Int) / 100 % 10).toNat = k / 100 % 10 := by omega
  have e3 : ((k : Int) / 10 % 10).toNat = k / 10 % 10 := by omega
  have e4 : ((k : Int) % 10).toNat = k % 10 := by omega
  rw [e1, e2, e3, e4]
  rfl

theorem digits2_length (n : Int) : (digits2 n).length = 2 := rfl

theorem digits4_length (n : Int) : (digits4 n).length = 4 := rfl

/-! ## Date suffix -/

theorem gmtime_rs_bounds (t : Int) (hlo : -9223372036 ≤ t) (hhi : t ≤ 9223372036) :
    (1000 ≤ (gmtime_rs t).tm_year + 1900 ∧ (gmtime_rs t).tm_year + 1900 ≤ 9999) ∧
    (1 ≤ (gmtime_rs t).tm_mon + 1 ∧ (gmtime_rs t).tm_mon + 1 ≤ 12) ∧
    (1 ≤ (gmtime_rs t).tm_mday ∧ (gmtime_rs t).tm_mday ≤ 31) ∧
    (0 ≤ (gmtime_rs t).tm_hour ∧ (gmtime_rs t).tm_hour ≤ 23) ∧
    (0 ≤ (gmtime_rs t).tm_min ∧ (gmtime_rs t).tm_min ≤ 59) ∧
    (0 ≤ (gmtime_rs t).tm_sec ∧ (gmtime_rs t).tm_sec ≤ 59) := by
  have hb := civil_from_days_bounds (t / 86400) (by omega) (by omega)
  unfold gmtime_rs
  simp only
  refine ⟨?_, ?_, ?_, ?_, ?_, ?_⟩ <;> omega

/-- Flooring an instant to whole seconds and breaking it down gives its UTC fields. -/
theorem gmtime_rs_floor (tp : Int) :
    (gmtime_rs (tp / 1000000000)).tm_year + 1900 = (utc_date tp).1 ∧
    (gmtime_rs (tp / 1000000000)).tm_mon + 1 = (utc_date tp).2.1 ∧
    (gmtime_rs (tp / 1000000000)).tm_mday = (utc_date tp).2.2 ∧
    (gmtime_rs (tp / 1000000000)).tm_hour = utc_hour tp ∧
    (gmtime_rs (tp / 1000000000)).tm_min = utc_minute tp ∧
    (gmtime_rs (tp / 1000000000)).tm_sec = utc_second tp := by
  have hd : tp / 1000000000 / 86400 = tp / 86400000000000 := by omega
  unfold gmtime_rs utc_date utc_hour utc_minute utc_second
  simp only [hd]
  refine ⟨?_, ?_, ?_, ?_, ?_, ?_⟩ <;> first | trivial | omega

/-- What `append_date_to_filename` returns for the UTC time zone and a non-zero timestamp, in
terms of the broken-down time it computes. -/
theorem append_date_gmt (env : Env) (path : fs.Path) (tp : Int) (at_time zm zs : Bool)
    (hr : representable tp) (hnz : tp ≠ 0) :
    append_date_to_filename env path tp at_time Timezone.GmtTime zm zs =
      (extract_stem_and_extension path).1 ++ ['_'] ++
        digits4 ((gmtime_rs (to_time_t tp)).tm_year + 1900) ++ ['-'] ++
        digits2 ((gmtime_rs (to_time_t tp)).tm_mon + 1) ++ ['-'] ++
        digits2 (gmtime_rs (to_time_t tp)).tm_mday ++
        (if at_time then
          ['_'] ++ digits2 (gmtime_rs (to_time_t tp)).tm_hour ++ ['-'] ++
            digits2 (if zm then 0 else (gmtime_rs (to_time_t tp)).tm_min) ++ ['-'] ++
            digits2 (if zs then 0 else (gmtime_rs (to_time_t tp)).tm_sec)
        else []) ++
        (extract_stem_and_extension path).2 := by
  obtain ⟨hlo, hhi⟩ := to_time_t_bounds hr
  obtain ⟨hy, hm, hd, hh, hmi, hs⟩ := gmtime_rs_bounds (to_time_t tp) hlo hhi
  unfold append_date_to_filename
  simp only [if_neg hnz, if_true]
  cases at_time <;> cases zm <;> cases zs <;>
    simp only [Bool.false_eq_true, if_false, if_true, put_int_w_four hy.1 hy.2,
      put_int_w_two (by omega : (0 : Int) ≤ (gmtime_rs (to_time_t tp)).tm_mon + 1) (by omega),
      put_int_w_two (by omega : (0 : Int) ≤ (gmtime_rs (to_time_t tp)).tm_mday) (by omega),
      put_int_w_two hh.1 (by omega), put_int_w_two hmi.1 (by omega),
      put_int_w_two hs.1 (by omega),
      put_int_w_two (le_refl (0 : Int)) (by omega), List.append_assoc, List.append_nil]

theorem utc_date_bounds (tp : Int) (hr : representable tp) :
    1000 ≤ (utc_date tp).1 ∧ (utc_date tp).1 ≤ 9999 ∧
    1 ≤ (utc_date tp).2.1 ∧ (utc_date tp).2.1 ≤ 12 ∧
    1 ≤ (utc_date tp).2.2 ∧ (utc_date tp).2.2 ≤ 31 := by
  unfold representable at hr
  exact civil_from_days_bounds (tp / 86400000000000) (by omega) (by omega)

/-- Truncation toward zero keeps the UTC day of a timestamp, unless the timestamp lies before
the epoch and after the start of the last second of its day. -/
theorem to_time_t_same_day {tp : Int}
    (h : 0 < tp ∨ (tp ≠ 0 ∧ tp % 86400000000000 ≤ 86399000000000)) :
    to_time_t tp / 86400 = tp / 86400000000000 := by
  rw [to_time_t_eq]
  split_ifs <;> omega

theorem gmtime_rs_date (t : Int) :
    (gmtime_rs t).tm_year + 1900 = (civil_from_days (t / 86400)).1 ∧
      (gmtime_rs t).tm_mon + 1 = (civil_from_days (t / 86400)).2.1 ∧
      (gmtime_rs t).tm_mday = (civil_from_days (t / 86400)).2.2 := by
  unfold gmtime_rs
  simp only
  refine ⟨?_, ?_, ?_⟩ <;> first | trivial | omega

theorem append_date_gmt_utc_date (env : Env) (path : fs.Path) (tp : Int) (zm zs : Bool)
    (hr : representable tp)
    (hts : 0 < tp ∨ (tp ≠ 0 ∧ tp % 86400000000000 ≤ 86399000000000)) :
    append_date_to_filename env path tp false Timezone.GmtTime zm zs =
      (extract_stem_and_extension path).1 ++ utc_date_suffix tp ++
        (extract_stem_and_extension path).2 := by
  obtain ⟨hy, hm, hd⟩ := gmtime_rs_date (to_time_t tp)
  rw [append_date_gmt env path tp false zm zs hr (by omega), hy, hm, hd,
    to_time_t_same_day hts]
  simp [utc_date_suffix, utc_date]

theorem append_date_time_gmt_utc (env : Env) (path : fs.Path) (tp : Int)
    (hr : representable tp) (hts : 0 < tp ∨ (tp ≠ 0 ∧ tp % 1000000000 = 0)) :
    append_date_to_filename env path tp true Timezone.GmtTime false false =
      (extract_stem_and_extension path).1 ++ utc_date_time_suffix tp ++
        (extract_stem_and_extension path).2 := by
  obtain ⟨hy, hm, hd, hh, hmi, hs⟩ := gmtime_rs_floor tp
  rw [append_date_gmt env path tp true false false hr (by omega), to_time_t_eq_floor hts,
    hy, hm, hd, hh, hmi, hs]
  simp [utc_date_time_suffix, utc_date_suffix]

/-! ## Date suffix under a locale -/

theorem put_unsigned_length_le_four {k : Nat} (h : k ≤ 9999) : (put_unsigned k).length ≤ 4 := by
  by_cases h0 : k = 0
  · subst h0; decide
  · rw [put_unsigned_eq_decimal (by omega)]
    by_cases h1 : k < 10
    · rw [decimal_of_lt_ten (by omega) h1]; simp
    · rw [decimal_step (n := k) (by omega)]
      by_cases h2 : k < 100
      · rw [decimal_of_lt_ten (n := k / 10) (by omega) (by omega)]; simp
      · rw [decimal_step (n := k / 10) (by omega)]
        by_cases h3 : k < 1000
        · rw [decimal_of_lt_ten (n := k / 10 / 10) (by omega) (by omega)]; simp
        · rw [decimal_step (n := k / 10 / 10) (by omega),
            decimal_of_lt_ten (n := k / 10 / 10 / 10) (by omega) (by omega)]
          simp

/-- A locale that leaves four-digit numbers alone renders a number from 0 to 9999 as the
classic locale does. -/
theorem put_int_w_loc_of_ungrouped (np : Numpunct) (fill : Char) (w : Nat) {n : Int}
    (h0 : 0 ≤ n) (h1 : n ≤ 9999) (hg : ungrouped np 4) :
    put_int_w_loc np fill w n = put_int_w fill w n := by
  unfold put_int_w_loc put_int_w put_int_loc put_int
  have hneg : ¬ n < 0 := by omega
  simp only [hneg, if_false]
  rw [put_unsigned_loc_of_ungrouped np n.toNat
    (ungrouped_mono (put_unsigned_length_le_four (by omega)) hg)]

/-- Under the UTC time zone, for a non-zero representable timestamp and a locale that leaves
four-digit numbers alone, the name is the one the classic locale gives. -/
theorem append_date_loc_gmt (np : Numpunct) (env : Env) (path : fs.Path) (tp : Int)
    (at_time zm zs : Bool) (hr : representable tp) (hnz : tp ≠ 0) (hg : ungrouped np 4) :
    append_date_to_filename_loc np env path tp at_time Timezone.GmtTime zm zs =
      append_date_to_filename env path tp at_time Timezone.GmtTime zm zs := by
  obtain ⟨hlo, hhi⟩ := to_time_t_bounds hr
  obtain ⟨hy, hm, hd, hh, hmi, hs⟩ := gmtime_rs_bounds (to_time_t tp) hlo hhi
  have e0 : ∀ w, put_int_w_loc np '0' w 0 = put_int_w '0' w 0 :=
    fun w => put_int_w_loc_of_ungrouped np '0' w (le_refl 0) (by omega) hg
  have ey : ∀ w, put_int_w_loc np '0' w ((gmtime_rs (to_time_t tp)).tm_year + 1900) =
      put_int_w '0' w ((gmtime_rs (to_time_t tp)).tm_year + 1900) :=
    fun w => put_int_w_loc_of_ungrouped np '0' w (by omega) (by omega) hg
  have em : ∀ w, put_int_w_loc np '0' w ((gmtime_rs (to_time_t tp)).tm_mon + 1) =
      put_int_w '0' w ((gmtime_rs (to_time_t tp)).tm_mon + 1) :=
    fun w => put_int_w_loc_of_ungrouped np '0' w (by omega) (by omega) hg
  have ed : ∀ w, put_int_w_loc np '0' w (gmtime_rs (to_time_t tp)).tm_mday =
      put_int_w '0' w (gmtime_rs (to_time_t tp)).tm_mday :=
    fun w => put_int_w_loc_of_ungrouped np '0' w (by omega) (by omega) hg
  have eh : ∀ w, put_int_w_loc np '0' w (gmtime_rs (to_time_t tp)).tm_hour =
      put_int_w '0' w (gmtime_rs (to_time_t tp)).tm_hour :=
    fun w => put_int_w_loc_of_ungrouped np '0' w (by omega) (by omega) hg
  have ei : ∀ w, put_int_w_loc np '0' w (gmtime_rs (to_time_t tp)).tm_min =
      put_int_w '0' w (gmtime_rs (to_time_t tp)).tm_min :=
    fun w => put_int_w_loc_of_ungrouped np '0' w (by omega) (by omega) hg
  have es : ∀ w, put_int_w_loc np '0' w (gmtime_rs (to_time_t tp)).tm_sec =
      put_int_w '0' w (gmtime_rs (to_time_t tp)).tm_sec :=
    fun w => put_int_w_loc_of_ungrouped np '0' w (by omega) (by omega) hg
  unfold append_date_to_filename_loc append_date_to_filename
  simp only [if_neg hnz, if_true]
  cases at_time <;> cases zm <;> cases zs <;>
    simp only [Bool.false_eq_true, if_false, if_true, e0, ey, em, ed, eh, ei, es]

/-- C4, as stated, fails twice: one nanosecond before the epoch the UTC date is 1969-12-31
and the name carries 1970-01-01; and when the global locale groups digits by three with a
comma, the year 2024 is written `2,024`. -/
theorem append_date_wrong_day_or_grouped_year :
    (representable (-1) ∧ (-1 : Int) ≠ 0 ∧ utc_date (-1) = (1969, 12, 31) ∧
      append_date_to_filename_loc classic_numpunct (utc_host 0) "logs/app.log".toList (-1)
          false Timezone.GmtTime false false = "logs/app_1970-01-01.log".toList ∧
      append_date_to_filename_loc classic_numpunct (utc_host 0) "logs/app.log".toList (-1)
          false Timezone.GmtTime false false ≠
        (extract_stem_and_extension "logs/app.log".toList).1 ++ utc_date_suffix (-1) ++
          (extract_stem_and_extension "logs/app.log".toList).2) ∧
    (representable 1709800000000000000 ∧ utc_date 1709800000000000000 = (2024, 3, 7) ∧
      append_date_to_filename_loc comma_numpunct (utc_host 0) "logs/app.log".toList
          1709800000000000000 false Timezone.GmtTime false false =
        "logs/app_2,024-03-07.log".toList ∧
      append_date_to_filename_loc comma_numpunct (utc_host 0) "logs/app.log".toList
          1709800000000000000 false Timezone.GmtTime false false ≠
        "logs/app_2024-03-07.log".toList) := by
  decide

/-- C4, amended: under a global locale that puts no group separator into a four-digit
number (no grouping, as in the classic locale, or a first group of at least four digits),
for every path and every representable timestamp other than the zero time point that is
after the epoch or not later than the start of the last second of its UTC day, without the
time and for the UTC time zone, `append_date_to_filename` returns the stem, then
`_YYYY-MM-DD` for the UTC calendar date of the timestamp, then the extension; the year has
four digits and the month and the day are in range, so the three fields have exactly 4, 2 and
2 digits; `logs/app.log` on 2024-03-07 gives `logs/app_2024-03-07.log`, and `app.log` on
2024-01-15 gives `app_2024-01-15.log`. -/
theorem append_date_only_loc_format (np : Numpunct) (env : Env) (path : fs.Path) (tp : Int)
    (zm zs : Bool) (hg : ungrouped np 4) (hr : representable tp)
    (hts : 0 < tp ∨ (tp ≠ 0 ∧ tp % 86400000000000 ≤ 86399000000000)) :
    append_date_to_filename_loc np env path tp false Timezone.GmtTime zm zs =
        (extract_stem_and_extension path).1 ++ utc_date_suffix tp ++
          (extract_stem_and_extension path).2 ∧
      (1000 ≤ (utc_date tp).1 ∧ (utc_date tp).1 ≤ 9999 ∧
        1 ≤ (utc_date tp).2.1 ∧ (utc_date tp).2.1 ≤ 12 ∧
        1 ≤ (utc_date tp).2.2 ∧ (utc_date tp).2.2 ≤ 31) ∧
      (utc_date tp = (2024, 3, 7) →
        append_date_to_filename_loc np env "logs/app.log".toList tp false Timezone.GmtTime
          zm zs = "logs/app_2024-03-07.log".toList) ∧
      (utc_date tp = (2024, 1, 15) →
        append_date_to_filename_loc np env "app.log".toList tp false Timezone.GmtTime zm zs =
          "app_2024-01-15.log".toList) := by
  have hnz : tp ≠ 0 := by omega
  refine ⟨?_, utc_date_bounds tp hr, ?_, ?_⟩
  · rw [append_date_loc_gmt np env path tp false zm zs hr hnz hg]
    exact append_date_gmt_utc_date env path tp zm zs hr hts
  · intro hdate
    rw [append_date_loc_gmt np env _ tp false zm zs hr hnz hg,
      append_date_gmt_utc_date env _ tp zm zs hr hts]
    unfold utc_date_suffix
    rw [hdate]
    decide
  · intro hdate
    rw [append_date_loc_gmt np env _ tp false zm zs hr hnz hg,
      append_date_gmt_utc_date env _ tp zm zs hr hts]
    unfold utc_date_suffix
    rw [hdate]
    decide

theorem append_date_only_loc_format_witness :
    ungrouped classic_numpunct 4 ∧ representable (-129600500000000) ∧
      ((0 : Int) < -129600500000000 ∨ ((-129600500000000 : Int) ≠ 0 ∧
        (-129600500000000 : Int) % 86400000000000 ≤ 86399000000000)) ∧
      append_date_to_filename_loc classic_numpunct (utc_host 0) "logs/app.log".toList
        (-129600500000000) false Timezone.GmtTime false false =
          "logs/app_1969-12-30.log".toList :=
  ⟨by decide, by decide, by decide,
    (append_date_only_loc_format classic_numpunct (utc_host 0) "logs/app.log".toList
      (-129600500000000) false false (by decide) (by decide) (by decide)).1.trans
      (by decide)⟩

/-- C5, as stated, fails twice: a second and a half before the epoch the UTC time is
23:59:58 and the name carries 23-59-59; and when the global locale groups digits by three
with a comma, the year is written `2,024` and the inserted suffix has 21 characters. -/
theorem append_date_time_wrong_second_or_grouped_year :
    (representable (-1500000000) ∧ (-1500000000 : Int) ≠ 0 ∧
      utc_date (-1500000000) = (1969, 12, 31) ∧
      (utc_hour (-1500000000), utc_minute (-1500000000), utc_second (-1500000000)) =
        (23, 59, 58) ∧
      append_date_to_filename_loc classic_numpunct (utc_host 0) "app.log".toList
          (-1500000000) true Timezone.GmtTime false false =
        "app_1969-12-31_23-59-59.log".toList ∧
      append_date_to_filename_loc classic_numpunct (utc_host 0) "app.log".toList
          (-1500000000) true Timezone.GmtTime false false ≠
        (extract_stem_and_extension "app.log".toList).1 ++
          utc_date_time_suffix (-1500000000) ++
          (extract_stem_and_extension "app.log".toList).2) ∧
    (representable 1709800000000000000 ∧
      append_date_to_filename_loc comma_numpunct (utc_host 0) "app.log".toList
          1709800000000000000 true Timezone.GmtTime false false =
        "app".toList ++ "_2,024-03-07_08-26-40".toList ++ ".log".toList ∧
      "_2,024-03-07_08-26-40".toList.length = 21) := by
  decide

/-- C5, amended: under a global locale that puts no group separator into a four-digit
number (no grouping, as in the classic locale, or a first group of at least four digits),
for every path and every representable timestamp other than the zero time point that is
after the epoch or a whole number of seconds, with the time, for the UTC time zone and
without zeroing, `append_date_to_filename` returns the stem, then `_YYYY-MM-DD_HH-MM-SS` for
the UTC broken-down time of the timestamp, then the extension; all six fields are in range,
so they have exactly 4, 2, 2, 2, 2 and 2 digits, and the inserted suffix is 20 characters
long. -/
theorem append_date_time_loc_format (np : Numpunct) (env : Env) (path : fs.Path) (tp : Int)
    (hg : ungrouped np 4) (hr : representable tp)
    (hts : 0 < tp ∨ (tp ≠ 0 ∧ tp % 1000000000 = 0)) :
    append_date_to_filename_loc np env path tp true Timezone.GmtTime false false =
        (extract_stem_and_extension path).1 ++ utc_date_time_suffix tp ++
          (extract_stem_and_extension path).2 ∧
      (utc_date_time_suffix tp).length = 20 ∧
      (1000 ≤ (utc_date tp).1 ∧ (utc_date tp).1 ≤ 9999 ∧
        1 ≤ (utc_date tp).2.1 ∧ (utc_date tp).2.1 ≤ 12 ∧
        1 ≤ (utc_date tp).2.2 ∧ (utc_date tp).2.2 ≤ 31) ∧
      (0 ≤ utc_hour tp ∧ utc_hour tp ≤ 23) ∧ (0 ≤ utc_minute tp ∧ utc_minute tp ≤ 59) ∧
      (0 ≤ utc_second tp ∧ utc_second tp ≤ 59) := by
  have hnz : tp ≠ 0 := by omega
  refine ⟨?_, rfl, utc_date_bounds tp hr, ?_, ?_, ?_⟩
  · rw [append_date_loc_gmt np env path tp true false false hr hnz hg]
    exact append_date_time_gmt_utc env path tp hr hts
  · simp only [utc_hour]; omega
  · simp only [utc_minute]; omega
  · simp only [utc_second]; omega

theorem append_date_time_loc_format_witness :
    ungrouped classic_numpunct 4 ∧ representable 1709800000000000000 ∧
      ((0 : Int) < 1709800000000000000 ∨
        ((1709800000000000000 : Int) ≠ 0 ∧ (1709800000000000000 : Int) % 1000000000 = 0)) ∧
      append_date_to_filename_loc classic_numpunct (utc_host 0) "logs/app.log".toList
        1709800000000000000 true Timezone.GmtTime false false =
          "logs/app_2024-03-07_08-26-40.log".toList :=
  ⟨by decide, by decide, by decide,
    (append_date_time_loc_format classic_numpunct (utc_host 0) "logs/app.log".toList
      1709800000000000000 (by decide) (by decide) (by decide)).1.trans (by decide)⟩

/-- C8, as stated, fails twice: with the zero timestamp and all arguments equal, the returned
path follows the clock of the host; and with a non-zero timestamp and all arguments equal,
the returned path follows the global locale. -/
theorem append_date_reads_clock_and_locale :
    (append_date_to_filename_loc classic_numpunct (utc_host 1709800000000000000)
        "app.log".toList 0 false Timezone.GmtTime false false = "app_2024-03-07.log".toList ∧
      append_date_to_filename_loc classic_numpunct (utc_host 1709900000000000000)
        "app.log".toList 0 false Timezone.GmtTime false false = "app_2024-03-08.log".toList ∧
      append_date_to_filename_loc classic_numpunct (utc_host 1709800000000000000)
          "app.log".toList 0 false Timezone.GmtTime false false ≠
        append_date_to_filename_loc classic_numpunct (utc_host 1709900000000000000)
          "app.log".toList 0 false Timezone.GmtTime false false) ∧
    (append_date_to_filename_loc classic_numpunct (utc_host 0) "app.log".toList
        1709800000000000000 false Timezone.GmtTime false false =
          "app_2024-03-07.log".toList ∧
      append_date_to_filename_loc comma_numpunct (utc_host 0) "app.log".toList
        1709800000000000000 false Timezone.GmtTime false false =
          "app_2,024-03-07.log".toList ∧
      append_date_to_filename_loc classic_numpunct (utc_host 0) "app.log".toList
          1709800000000000000 false Timezone.GmtTime false false ≠
        append_date_to_filename_loc comma_numpunct (utc_host 0) "app.log".toList
          1709800000000000000 false Timezone.GmtTime false false) := by
  decide

/-- C8, amended: for every path, every timestamp other than the zero time point and every
choice of the three flags, under the UTC time zone the returned path is the same on every
host with the same global locale, whatever its clock reads and whatever its local time zone
is: it is determined by the arguments and the global locale, and the clock is not read. -/
theorem append_date_loc_ignores_clock (np : Numpunct) (env₁ env₂ : Env) (path : fs.Path)
    (tp : Int) (at_time zm zs : Bool) (hnz : tp ≠ 0) :
    append_date_to_filename_loc np env₁ path tp at_time Timezone.GmtTime zm zs =
      append_date_to_filename_loc np env₂ path tp at_time Timezone.GmtTime zm zs := by
  unfold append_date_to_filename_loc
  simp only [if_neg hnz, if_true]

theorem append_date_loc_ignores_clock_witness :
    (1709800000000000000 : Int) ≠ 0 ∧
      append_date_to_filename_loc comma_numpunct (utc_host 1) "app.log".toList
          1709800000000000000 true Timezone.GmtTime false true =
        append_date_to_filename_loc comma_numpunct (utc_host 1709900000000000000)
          "app.log".toList 1709800000000000000 true Timezone.GmtTime false true :=
  ⟨by decide, append_date_loc_ignores_clock comma_numpunct (utc_host 1)
    (utc_host 1709900000000000000) "app.log".toList 1709800000000000000 true false true
    (by decide)⟩

/-! ## Best-effort file operations -/

/-- C11: `remove_file` and `rename_file` always return a boolean, whatever the path or paths
and whatever the file system reports: `false` exactly when the operation reported an error,
`true` otherwise; nothing is sent to `std::cerr` when it succeeded. -/
theorem remove_rename_result (fs_remove : fs.Path → ErrorCode)
    (fs_rename : fs.Path → fs.Path → ErrorCode) (filename previous_file new_file : fs.Path) :
    ((remove_file fs_remove filename).1 = false ↔ (fs_remove filename).value ≠ 0) ∧
      ((remove_file fs_remove filename).1 = true ↔ (fs_remove filename).value = 0) ∧
      ((rename_file fs_rename previous_file new_file).1 = false ↔
        (fs_rename previous_file new_file).value ≠ 0) ∧
      ((rename_file fs_rename previous_file new_file).1 = true ↔
        (fs_rename previous_file new_file).value = 0) ∧
      ((fs_remove filename).value = 0 → (remove_file fs_remove filename).2 = []) ∧
      ((fs_rename previous_file new_file).value = 0 →
        (rename_file fs_rename previous_file new_file).2 = []) := by
  unfold remove_file rename_file
  by_cases h1 : (fs_remove filename).value = 0 <;>
    by_cases h2 : (fs_rename previous_file new_file).value = 0 <;> simp [h1, h2]

/-! ## Suffixed names -/

theorem digitChar_ne_sep {d : Nat} (h : d < 10) : Nat.digitChar d ≠ fs.sep := by
  interval_cases d <;> decide

theorem put_digits_no_sep (fuel : Nat) :
    ∀ (n : Nat) (acc : List Char), fs.sep ∉ acc → fs.sep ∉ put_digits fuel n acc := by
  induction fuel with
  | zero => intro n acc h; exact h
  | succ fuel ih =>
    intro n acc h
    unfold put_digits
    have hcons : ∀ d, d < 10 → fs.sep ∉ Nat.digitChar d :: acc := by
      intro d hd hm
      rcases List.mem_cons.mp hm with e | e
      · exact digitChar_ne_sep hd e.symm
      · exact h e
    split_ifs with hn
    · exact hcons n hn
    · exact ih _ _ (hcons _ (Nat.mod_lt _ (by norm_num)))

theorem put_unsigned_no_sep (n : Nat) : fs.sep ∉ put_unsigned n :=
  put_digits_no_sep _ _ _ (List.not_mem_nil _)

theorem put_digits_ne_nil (fuel : Nat) :
    ∀ (n : Nat) (acc : List Char), 0 < fuel → put_digits fuel n acc ≠ [] := by
  induction fuel with
  | zero => intro n acc h; omega
  | succ fuel ih =>
    intro n acc _
    unfold put_digits
    split_ifs
    · simp
    · cases fuel with
      | zero => simp [put_digits]
      | succ f => exact ih _ _ (by omega)

theorem put_int_w_no_sep (w : Nat) (n : Int) : fs.sep ∉ put_int_w '0' w n := by
  unfold put_int_w put_int
  simp only [List.mem_append, not_or]
  constructor
  · intro h
    have := List.eq_of_mem_replicate h
    revert this
    decide
  · split_ifs
    · intro h
      rcases List.mem_cons.mp h with e | e
      · revert e; decide
      · exact put_unsigned_no_sep _ e
    · exact put_unsigned_no_sep _

theorem filename_append_of_ends_with_sep (Q x : List Char)
    (hQ : Q = [] ∨ ∃ Q', Q = Q' ++ [fs.sep]) (hx : fs.sep ∉ x) : fs.filename (Q ++ x) = x := by
  unfold fs.filename
  have hall : ∀ a ∈ x.reverse, (fun c => c != fs.sep) a = true := by
    intro a ha
    have : a ≠ fs.sep := fun e => hx (by rw [← e]; exact List.mem_reverse.mp ha)
    simpa using this
  rw [List.reverse_append, List.takeWhile_append_of_pos hall]
  rcases hQ with rfl | ⟨Q', rfl⟩
  · simp
  · have h2 : (Q' ++ [fs.sep]).reverse = fs.sep :: Q'.reverse := by simp
    rw [h2, List.takeWhile_cons_of_neg (by simp)]
    simp

theorem has_relative_path_append (Q x : List Char) (hne : x ≠ []) (hx : fs.sep ∉ x) :
    fs.has_relative_path (Q ++ x) = true := by
  unfold fs.has_relative_path
  rw [List.any_eq_true]
  cases x with
  | nil => exact absurd rfl hne
  | cons a t =>
    refine ⟨a, by simp, ?_⟩
    have : a ≠ fs.sep := fun e => hx (by rw [e]; exact List.mem_cons_self _ _)
    simpa using this

theorem parent_path_append_of_ends_with_sep (Q' x : List Char) (hne : x ≠ [])
    (hx : fs.sep ∉ x) :
    fs.parent_path (Q' ++ [fs.sep] ++ x) =
      if (Q'.reverse.dropWhile (fun c => c == fs.sep)).isEmpty then [fs.sep]
      else (Q'.reverse.dropWhile (fun c => c == fs.sep)).reverse := by
  have hrel := has_relative_path_append (Q' ++ [fs.sep]) x hne hx
  have hall : ∀ a ∈ x.reverse, (fun c => c != fs.sep) a = true := by
    intro a ha
    have : a ≠ fs.sep := fun e => hx (by rw [← e]; exact List.mem_reverse.mp ha)
    simpa using this
  have hd : (Q' ++ [fs.sep] ++ x).reverse.dropWhile (fun c => c != fs.sep) =
      fs.sep :: Q'.reverse := by
    rw [List.reverse_append, List.dropWhile_append_of_pos hall, List.reverse_append,
      List.reverse_singleton, List.singleton_append, List.dropWhile_cons_of_neg (by simp)]
  unfold fs.parent_path
  simp only [hrel, Bool.not_true, Bool.false_eq_true, if_false, hd, List.isEmpty_cons]
  rw [List.dropWhile_cons_of_pos (by simp)]

theorem parent_path_of_no_sep (x : List Char) (hne : x ≠ []) (hx : fs.sep ∉ x) :
    fs.parent_path x = [] := by
  have hrel := has_relative_path_append [] x hne hx
  rw [List.nil_append] at hrel
  have hall : ∀ a ∈ x.reverse, (fun c => c != fs.sep) a = true := by
    intro a ha
    have : a ≠ fs.sep := fun e => hx (by rw [← e]; exact List.mem_reverse.mp ha)
    simpa using this
  have hd : x.reverse.dropWhile (fun c => c != fs.sep) = [] := by
    have := @List.dropWhile_append_of_pos Char _ x.reverse [] hall
    simpa using this
  unfold fs.parent_path
  simp [hrel, hd]

/-- The stem returned by `extract_stem_and_extension` is the stem of the filename after a
prefix that is empty or ends with a separator; a separator-free name put after that prefix
is the filename of the result, and the result has the parent path of the original. -/
theorem extract_stem_prefix (p : fs.Path) :
    ∃ Q, (extract_stem_and_extension p).1 = Q ++ fs.stem p ∧
      (∀ x, fs.sep ∉ x → fs.filename (Q ++ x) = x) ∧
      (fs.has_relative_path p = true → ∀ x, x ≠ [] → fs.sep ∉ x →
        fs.parent_path (Q ++ x) = fs.parent_path p) := by
  unfold extract_stem_and_extension
  simp only
  rw [append_stem]
  by_cases hrel : fs.has_relative_path p = true
  · cases hd : p.reverse.dropWhile (fun c => c != fs.sep) with
    | nil =>
      have hpp : fs.parent_path p = [] := by
        unfold fs.parent_path
        simp [hrel, hd]
      refine ⟨[], ?_, ?_, ?_⟩
      · rw [hpp]
        have hnf : fs.has_filename [] = false := by decide
        simp [hnf]
      · intro x hx
        exact filename_append_of_ends_with_sep [] x (Or.inl rfl) hx
      · intro _ x hne hx
        rw [hpp, List.nil_append]
        exact parent_path_of_no_sep x hne hx
    | cons c rest =>
      have hc : c = fs.sep := by
        have := dropWhile_head_false hd
        simpa using this
      subst hc
      have hpp : fs.parent_path p =
          if (rest.dropWhile (fun c => c == fs.sep)).isEmpty then [fs.sep]
          else (rest.dropWhile (fun c => c == fs.sep)).reverse := by
        unfold fs.parent_path
        simp only [hrel, Bool.not_true, Bool.false_eq_true, if_false, hd, List.isEmpty_cons]
        rw [List.dropWhile_cons_of_pos (by simp)]
      refine ⟨(rest.dropWhile (fun c => c == fs.sep)).reverse ++ [fs.sep], ?_, ?_, ?_⟩
      · rw [hpp]
        cases hb : rest.dropWhile (fun c => c == fs.sep) with
        | nil =>
          have hnf : fs.has_filename [fs.sep] = false := by decide
          simp [hnf]
        | cons d rest' =>
          have hdne : d ≠ fs.sep := by
            have := dropWhile_head_false hb
            simpa using this
          have hf : fs.has_filename (d :: rest').reverse = true := by
            unfold fs.has_filename fs.filename
            rw [List.reverse_reverse, List.takeWhile_cons_of_pos (by simpa using hdne)]
            simp
          have hf2 : fs.has_filename (rest'.reverse ++ [d]) = true := by simpa using hf
          simp [hf2]
      · intro x hx
        exact filename_append_of_ends_with_sep _ x (Or.inr ⟨_, rfl⟩) hx
      · intro _ x hne hx
        rw [parent_path_append_of_ends_with_sep _ x hne hx, hpp, List.reverse_reverse,
          List.dropWhile_idempotent]
  · have hrel2 : fs.has_relative_path p = false := by simpa using hrel
    have hfn := filename_nil_of_no_relative_path hrel2
    have hpp : fs.parent_path p = p := by
      unfold fs.parent_path
      simp [hrel2]
    have hnf : fs.has_filename p = false := by
      unfold fs.has_filename; rw [hfn]; rfl
    refine ⟨p, ?_, ?_, ?_⟩
    · rw [hpp]
      simp [hnf]
    · intro x hx
      apply filename_append_of_ends_with_sep p x _ hx
      by_cases hp : p = []
      · exact Or.inl hp
      · right
        refine ⟨p.dropLast, ?_⟩
        have hlast : p.getLast hp = fs.sep := by
          unfold fs.has_relative_path at hrel2
          rw [List.any_eq_false] at hrel2
          have := hrel2 _ (List.getLast_mem hp)
          simpa using this
        rw [← hlast, List.dropLast_append_getLast hp]
    · intro h
      rw [h] at hrel2
      cases hrel2

theorem extension_cases (p : fs.Path) :
    fs.extension p = [] ∨ ∃ e, fs.extension p = '.' :: e ∧ '.' ∉ e := by
  unfold fs.extension
  simp only
  split_ifs
  · exact Or.inl rfl
  · split
    · exact Or.inl rfl
    · split_ifs
      · exact Or.inl rfl
      · refine Or.inr ⟨_, rfl, ?_⟩
        intro hm
        have := List.mem_takeWhile_imp (List.mem_reverse.mp hm)
        simp at this

theorem extension_no_sep (p : fs.Path) : fs.sep ∉ fs.extension p := by
  intro h
  apply filename_no_sep p
  rw [← stem_append_extension p]
  exact List.mem_append_right _ h

/-- What holds of a name made of the stem, a separator-free non-empty middle part and the
extension of a path. -/
theorem suffixed_name_props (p mid : List Char) (hmid : mid ≠ []) (hsep : fs.sep ∉ mid) :
    (extract_stem_and_extension p).1 ++ mid ++ (extract_stem_and_extension p).2 ≠ p ∧
      fs.filename ((extract_stem_and_extension p).1 ++ mid ++ (extract_stem_and_extension p).2) =
        fs.stem p ++ mid ++ fs.extension p ∧
      (fs.has_relative_path p = true →
        fs.parent_path
          ((extract_stem_and_extension p).1 ++ mid ++ (extract_stem_and_extension p).2) =
          fs.parent_path p) ∧
      (fs.extension p ≠ [] → 2 ≤ mid.length →
        fs.extension
          ((extract_stem_and_extension p).1 ++ mid ++ (extract_stem_and_extension p).2) =
          fs.extension p) := by
  obtain ⟨Q, hQ, hfile, hparent⟩ := extract_stem_prefix p
  have hext : (extract_stem_and_extension p).2 = fs.extension p := rfl
  have hx : fs.sep ∉ fs.stem p ++ mid ++ fs.extension p := by
    simp only [List.mem_append, not_or]
    exact ⟨⟨stem_no_sep p, hsep⟩, extension_no_sep p⟩
  have hxne : fs.stem p ++ mid ++ fs.extension p ≠ [] := by
    cases mid with
    | nil => exact absurd rfl hmid
    | cons a t => simp
  have hR : (extract_stem_and_extension p).1 ++ mid ++ (extract_stem_and_extension p).2 =
      Q ++ (fs.stem p ++ mid ++ fs.extension p) := by
    rw [hQ, hext]; simp
  have hfn := hfile _ hx
  rw [hR]
  refine ⟨?_, hfn, fun hrel => hparent hrel _ hxne hx, ?_⟩
  · intro heq
    rw [heq, ← stem_append_extension p, List.append_assoc] at hfn
    have h2 := List.append_cancel_left hfn
    have h3 := congrArg List.length h2
    cases mid with
    | nil => exact hmid rfl
    | cons a t => simp at h3; omega
  · intro hne hlen
    rcases extension_cases p with h0 | ⟨e, he, hdot⟩
    · exact absurd h0 hne
    · rw [he] at hfn ⊢
      apply extension_of_last_dot _ (fs.stem p ++ mid) e hfn _ hdot
      · intro h2
        have h3 := congrArg List.length hfn
        rw [h2] at h3
        simp at h3
        omega
      · cases mid with
        | nil => exact absurd rfl hmid
        | cons a t => simp

/-- The name `append_date_to_filename` returns, field by field, for every time zone, every
timestamp and every choice of flags. -/
theorem append_date_fields (env : Env) (p : fs.Path) (tp : Int) (at_time : Bool) (tz : Timezone)
    (zm zs : Bool) :
    append_date_to_filename env p tp at_time tz zm zs =
      (extract_stem_and_extension p).1 ++ ['_'] ++ date_fields (broken_down_time env tp tz) ++
        (if at_time then ['_'] ++ time_fields (broken_down_time env tp tz) zm zs else []) ++
        (extract_stem_and_extension p).2 := by
  unfold append_date_to_filename broken_down_time date_fields time_fields
  have h0 : put_int_w '0' 2 0 = ['0', '0'] := by decide
  cases at_time <;> cases zm <;> cases zs <;>
    simp only [Bool.false_eq_true, if_false, if_true, h0, List.append_assoc, List.append_nil]

theorem date_fields_no_sep (tm : Tm) : fs.sep ∉ date_fields tm := by
  unfold date_fields
  simp only [List.mem_append, not_or]
  exact ⟨⟨⟨⟨put_int_w_no_sep 4 _, by decide⟩, put_int_w_no_sep 2 _⟩, by decide⟩,
    put_int_w_no_sep 2 _⟩

theorem time_fields_no_sep (tm : Tm) (zm zs : Bool) : fs.sep ∉ time_fields tm zm zs := by
  unfold time_fields
  simp only [List.mem_append, not_or]
  refine ⟨⟨⟨⟨put_int_w_no_sep 2 _, by decide⟩, ?_⟩, by decide⟩, ?_⟩
  · split_ifs
    · decide
    · exact put_int_w_no_sep 2 _
  · split_ifs
    · decide
    · exact put_int_w_no_sep 2 _

/-- The name `append_date_to_filename` returns is the stem, a middle part and the extension;
the middle part starts with an underscore and has no separator. -/
theorem append_date_shape (env : Env) (p : fs.Path) (tp : Int) (at_time : Bool) (tz : Timezone)
    (zm zs : Bool) :
    ∃ mid, append_date_to_filename env p tp at_time tz zm zs =
        (extract_stem_and_extension p).1 ++ ('_' :: mid) ++ (extract_stem_and_extension p).2 ∧
      fs.sep ∉ '_' :: mid := by
  refine ⟨date_fields (broken_down_time env tp tz) ++
    (if at_time then ['_'] ++ time_fields (broken_down_time env tp tz) zm zs else []), ?_, ?_⟩
  · rw [append_date_fields]
    simp
  · simp only [List.mem_cons, List.mem_append, not_or]
    refine ⟨by decide, date_fields_no_sep _, ?_⟩
    split_ifs
    · simp only [List.mem_append, not_or]
      exact ⟨by decide, time_fields_no_sep _ _ _⟩
    · exact List.not_mem_nil _

theorem put_unsigned_ne_nil (n : Nat) : put_unsigned n ≠ [] :=
  put_digits_ne_nil _ _ _ (by omega)

theorem index_middle_props (k : Nat) :
    fs.sep ∉ '.' :: put_unsigned k ∧ 2 ≤ ('.' :: put_unsigned k).length := by
  constructor
  · intro h
    rcases List.mem_cons.mp h with e | e
    · revert e; decide
    · exact put_unsigned_no_sep k e
  · have := put_unsigned_ne_nil k
    cases hk : put_unsigned k with
    | nil => exact absurd hk this
    | cons a t => simp

theorem append_index_to_filename_ne (path : fs.Path) (k : Nat) (hk : 1 ≤ k) :
    append_index_to_filename path k ≠ path := by
  unfold append_index_to_filename
  rw [if_neg (by omega)]
  have h := (suffixed_name_props path ('.' :: put_unsigned k) (by simp)
    (index_middle_props k).1).1
  simpa using h

theorem append_date_to_filename_ne (env : Env) (path : fs.Path) (tp : Int) (at_time : Bool)
    (tz : Timezone) (zm zs : Bool) :
    append_date_to_filename env path tp at_time tz zm zs ≠ path := by
  obtain ⟨mid, hmid, hsep⟩ := append_date_shape env path tp at_time tz zm zs
  rw [hmid]
  exact (suffixed_name_props path ('_' :: mid) (by simp) hsep).1

/-- C15: a suffixed name is never the name it was made from: for every path and every index
`k ≥ 1`, `append_index_to_filename path k` differs from the path, and for every path,
timestamp, time zone and choice of flags, on every host, `append_date_to_filename` returns a
path that differs from the given one. -/
theorem rotated_name_differs (env : Env) (path : fs.Path) (tp : Int) (at_time : Bool)
    (tz : Timezone) (zm zs : Bool) (k : Nat) (hk : 1 ≤ k) :
    append_index_to_filename path k ≠ path ∧
      append_date_to_filename env path tp at_time tz zm zs ≠ path :=
  ⟨append_index_to_filename_ne path k hk,
    append_date_to_filename_ne env path tp at_time tz zm zs⟩

theorem rotated_name_differs_witness :
    append_index_to_filename "logs//app.log".toList 1 ≠ "logs//app.log".toList ∧
      append_date_to_filename (utc_host 1709800000000000000) "logs//app.log".toList 0 true
        Timezone.LocalTime true false ≠ "logs//app.log".toList :=
  rotated_name_differs (utc_host 1709800000000000000) "logs//app.log".toList 0 true
    Timezone.LocalTime true false 1 (by decide)

/-- C17: with the time included, the name is the stem, `_`, the date fields, `_`, the hour,
the minutes and the seconds of the broken-down time of the timestamp, and the extension, where
`zero_out_minutes` puts `00` for the minutes and `zero_out_seconds` puts `00` for the seconds
and nothing else changes; without the time, the name is the stem, `_`, the date fields and the
extension, the same for all four combinations of the two flags. -/
theorem zeroing_flags_effect (env : Env) (path : fs.Path) (tp : Int) (tz : Timezone)
    (zm zs : Bool) :
    append_date_to_filename env path tp true tz zm zs =
        (extract_stem_and_extension path).1 ++ ['_'] ++
          date_fields (broken_down_time env tp tz) ++ ['_'] ++
          put_int_w '0' 2 (broken_down_time env tp tz).tm_hour ++ ['-'] ++
          (if zm then ['0', '0'] else put_int_w '0' 2 (broken_down_time env tp tz).tm_min) ++
          ['-'] ++
          (if zs then ['0', '0'] else put_int_w '0' 2 (broken_down_time env tp tz).tm_sec) ++
          (extract_stem_and_extension path).2 ∧
      append_date_to_filename env path tp false tz zm zs =
        (extract_stem_and_extension path).1 ++ ['_'] ++
          date_fields (broken_down_time env tp tz) ++ (extract_stem_and_extension path).2 ∧
      append_date_to_filename env path tp false tz zm zs =
        append_date_to_filename env path tp false tz false false := by
  refine ⟨?_, ?_, ?_⟩
  · rw [append_date_fields]
    simp [time_fields]
  · rw [append_date_fields]
    simp
  · rw [append_date_fields, append_date_fields]
    simp

/-! ## Order of names -/

theorem lex_le_refl (a : List Char) : lex_le a a = true := by
  induction a with
  | nil => rfl
  | cons c t ih => simp [lex_le, ih]

theorem lex_le_cons_same (c : Char) (a b : List Char) :
    lex_le (c :: a) (c :: b) = lex_le a b := by
  simp [lex_le]

theorem lex_le_append_left (s a b : List Char) : lex_le (s ++ a) (s ++ b) = lex_le a b := by
  induction s with
  | nil => rfl
  | cons c t ih => rw [List.cons_append, List.cons_append, lex_le_cons_same, ih]

theorem digitChar_toNat {d : Nat} (h : d < 10) : (Nat.digitChar d).toNat = 48 + d := by
  interval_cases d <;> rfl

theorem lex_le_digit {a b : Nat} (ha : a < 10) (hb : b < 10) (r₁ r₂ : List Char) :
    lex_le (Nat.digitChar a :: r₁) (Nat.digitChar b :: r₂) = true ↔
      a < b ∨ (a = b ∧ lex_le r₁ r₂ = true) := by
  simp only [lex_le, digitChar_toNat ha, digitChar_toNat hb]
  split_ifs with h1 h2
  · simp; omega
  · simp; omega
  · have : a = b := by omega
    subst this
    simp

theorem digits2_split {m : Int} (h0 : 0 ≤ m) (h1 : m ≤ 99) :
    ∃ a b : Nat, a < 10 ∧ b < 10 ∧ m = 10 * (a : Int) + b ∧
      digits2 m = [Nat.digitChar a, Nat.digitChar b] :=
  ⟨(m / 10).toNat, (m % 10).toNat, by omega, by omega, by omega, rfl⟩

theorem digits4_split {m : Int} (h0 : 0 ≤ m) (h1 : m ≤ 9999) :
    ∃ a b c d : Nat, a < 10 ∧ b < 10 ∧ c < 10 ∧ d < 10 ∧
      m = 1000 * (a : Int) + 100 * b + 10 * c + d ∧
      digits4 m = [Nat.digitChar a, Nat.digitChar b, Nat.digitChar c, Nat.digitChar d] :=
  ⟨(m / 1000).toNat, (m / 100 % 10).toNat, (m / 10 % 10).toNat, (m % 10).toNat, by omega,
    by omega, by omega, by omega, by omega, rfl⟩

theorem lex_le_digits2 {m n : Int} (hm0 : 0 ≤ m) (hm : m ≤ 99) (hn0 : 0 ≤ n) (hn : n ≤ 99)
    (r₁ r₂ : List Char) :
    lex_le (digits2 m ++ r₁) (digits2 n ++ r₂) = true ↔
      m < n ∨ (m = n ∧ lex_le r₁ r₂ = true) := by
  obtain ⟨a, b, ha, hb, rfl, ea⟩ := digits2_split hm0 hm
  obtain ⟨c, d, hc, hd, rfl, ec⟩ := digits2_split hn0 hn
  rw [ea, ec]
  simp only [List.cons_append, List.nil_append]
  rw [lex_le_digit ha hc, lex_le_digit hb hd]
  constructor
  · rintro (h | ⟨h1, h | ⟨h2, h3⟩⟩)
    · left; omega
    · left; omega
    · right; exact ⟨by omega, h3⟩
  · rintro (h | ⟨h1, h2⟩)
    · by_cases hq : a < c
      · exact Or.inl hq
      · right; exact ⟨by omega, Or.inl (by omega)⟩
    · right; exact ⟨by omega, Or.inr ⟨by omega, h2⟩⟩

theorem lex_le_digits4 {m n : Int} (hm0 : 0 ≤ m) (hm : m ≤ 9999) (hn0 : 0 ≤ n) (hn : n ≤ 9999)
    (r₁ r₂ : List Char) :
    lex_le (digits4 m ++ r₁) (digits4 n ++ r₂) = true ↔
      m < n ∨ (m = n ∧ lex_le r₁ r₂ = true) := by
  obtain ⟨a, b, c, d, ha, hb, hc, hd, rfl, ea⟩ := digits4_split hm0 hm
  obtain ⟨a', b', c', d', ha', hb', hc', hd', rfl, ea'⟩ := digits4_split hn0 hn
  rw [ea, ea']
  simp only [List.cons_append, List.nil_append]
  rw [lex_le_digit ha ha', lex_le_digit hb hb', lex_le_digit hc hc', lex_le_digit hd hd']
  constructor
  · rintro (h | ⟨h1, h | ⟨h2, h | ⟨h3, h | ⟨h4, h5⟩⟩⟩⟩)
    · left; omega
    · left; omega
    · left; omega
    · left; omega
    · right; exact ⟨by omega, h5⟩
  · rintro (h | ⟨h1, h2⟩)
    · by_cases q1 : a < a'
      · exact Or.inl q1
      · right; refine ⟨by omega, ?_⟩
        by_cases q2 : b < b'
        · exact Or.inl q2
        · right; refine ⟨by omega, ?_⟩
          by_cases q3 : c < c'
          · exact Or.inl q3
          · right; exact ⟨by omega, Or.inl (by omega)⟩
    · right; exact ⟨by omega, Or.inr ⟨by omega, Or.inr ⟨by omega, Or.inr ⟨by omega, h2⟩⟩⟩⟩

/-! ## Order of dates -/


theorem year_of_era_decomposed (a C Q R r : Int) (hC0 : 0 ≤ C) (hC : C ≤ 3) (hQ0 : 0 ≤ Q)
    (hQ : Q ≤ 24) (hR0 : 0 ≤ R) (hR : R ≤ 3) (hr0 : 0 ≤ r)
    (hr : r ≤ 364 ∨ (r = 365 ∧ R = 3 ∧ (Q < 24 ∨ C = 3)))
    (ha : a = 36524 * C + 1461 * Q + 365 * R + r) :
    (a - a / 1460 + a / 36524 - a / 146096) / 365 = 100 * C + 4 * Q + R ∧
      a - (365 * (100 * C + 4 * Q + R) + (100 * C + 4 * Q + R) / 4 -
        (100 * C + 4 * Q + R) / 100) = r := by
  have h4 : (100 * C + 4 * Q + R) / 4 = 25 * C + Q := by omega
  have h100 : (100 * C + 4 * Q + R) / 100 = C := by omega
  refine ⟨?_, by rw [h4, h100]; omega⟩
  by_cases hlast : a = 146096
  · have : 100 * C + 4 * Q + R = 399 := by omega
    rw [this, hlast]; rfl
  · have he : a / 36524 = C := by omega
    have hf : a / 146096 = 0 := by omega
    by_cases hcarry : 24 * C + Q + 365 * R + r < 1460
    · have hd : a / 1460 = 25 * C + Q := by omega
      rw [hd, he, hf]; omega
    · have hd : a / 1460 = 25 * C + Q + 1 := by omega
      rw [hd, he, hf]; omega

theorem day_of_era_decompose (a : Int) (h0 : 0 ≤ a) (h1 : a < 146097) :
    ∃ C Q R r : Int, 0 ≤ C ∧ C ≤ 3 ∧ 0 ≤ Q ∧ Q ≤ 24 ∧ 0 ≤ R ∧ R ≤ 3 ∧ 0 ≤ r ∧
      (r ≤ 364 ∨ (r = 365 ∧ R = 3 ∧ (Q < 24 ∨ C = 3))) ∧
      a = 36524 * C + 1461 * Q + 365 * R + r := by
  by_cases hc : a = 146096
  · exact ⟨3, 24, 3, 365, by omega⟩
  · by_cases hq : (a % 36524) % 1461 = 1460
    · exact ⟨a / 36524, a % 36524 / 1461, 3, 365, by omega⟩
    · exact ⟨a / 36524, a % 36524 / 1461, a % 36524 % 1461 / 365, a % 36524 % 1461 % 365,
        by omega⟩

theorem pos_mono (e C Q R r e' C' Q' R' r' : Int)
    (hC0 : 0 ≤ C) (hC : C ≤ 3) (hQ0 : 0 ≤ Q) (hQ : Q ≤ 24) (hR0 : 0 ≤ R) (hR : R ≤ 3)
    (hr0 : 0 ≤ r)
    (hC0' : 0 ≤ C') (hC' : C' ≤ 3) (hQ0' : 0 ≤ Q') (hQ' : Q' ≤ 24) (hR0' : 0 ≤ R')
    (hR' : R' ≤ 3) (hr0' : 0 ≤ r')
    (hr' : r' ≤ 364 ∨ (r' = 365 ∧ R' = 3 ∧ (Q' < 24 ∨ C' = 3)))
    (hP : 146097 * e + 36524 * C + 1461 * Q + 365 * R + r ≤
      146097 * e' + 36524 * C' + 1461 * Q' + 365 * R' + r') :
    (400 * e + 100 * C + 4 * Q + R) * 366 + r ≤ (400 * e' + 100 * C' + 4 * Q' + R') * 366 + r' ∧
    (146097 * e + 36524 * C + 1461 * Q + 365 * R + r <
        146097 * e' + 36524 * C' + 1461 * Q' + 365 * R' + r' →
      (400 * e + 100 * C + 4 * Q + R) * 366 + r <
        (400 * e' + 100 * C' + 4 * Q' + R') * 366 + r') := by
  rcases lt_trichotomy e e' with he | he | he
  · omega
  · subst he
    rcases lt_trichotomy C C' with hc | hc | hc
    · omega
    · subst hc
      rcases lt_trichotomy Q Q' with hq | hq | hq
      · omega
      · subst hq
        rcases lt_trichotomy R R' with hR2 | hR2 | hR2
        · omega
        · subst hR2; omega
        · omega
      · omega
    · omega
  · omega

theorem month_stage_bounds (a : Int) (h0 : 0 ≤ a) (h1 : a ≤ 365) :
    0 ≤ (5 * a + 2) / 153 ∧ (5 * a + 2) / 153 ≤ 11 ∧
      1 ≤ a - (153 * ((5 * a + 2) / 153) + 2) / 5 + 1 ∧
      a - (153 * ((5 * a + 2) / 153) + 2) / 5 + 1 ≤ 31 := by
  omega

theorem month_stage_mono (a b : Int) (h0 : 0 ≤ a) (hab : a ≤ b) (h1 : b ≤ 365) :
    (5 * a + 2) / 153 * 32 + (a - (153 * ((5 * a + 2) / 153) + 2) / 5 + 1) ≤
        (5 * b + 2) / 153 * 32 + (b - (153 * ((5 * b + 2) / 153) + 2) / 5 + 1) ∧
      (a < b → (5 * a + 2) / 153 * 32 + (a - (153 * ((5 * a + 2) / 153) + 2) / 5 + 1) <
        (5 * b + 2) / 153 * 32 + (b - (153 * ((5 * b + 2) / 153) + 2) / 5 + 1)) := by
  have ha := month_stage_bounds a h0 (by omega)
  have hb := month_stage_bounds b (by omega) h1
  have hmono : (5 * a + 2) / 153 ≤ (5 * b + 2) / 153 := by omega
  rcases lt_or_eq_of_le hmono with hlt | heq
  · generalize (5 * a + 2) / 153 = ma at *
    generalize (5 * b + 2) / 153 = mb at *
    generalize (153 * ma + 2) / 5 = ca at *
    generalize (153 * mb + 2) / 5 = cb at *
    constructor
    · omega
    · intro _; omega
  · rw [heq]
    constructor
    · omega
    · intro _; omega

/-- The date of a day number from its place in the calendar: the era, the century, the
four-year cycle and the year in them, and the day of the year counted from 1 March. -/
theorem civil_from_days_position (z : Int) :
    ∃ e C Q R r : Int, 0 ≤ C ∧ C ≤ 3 ∧ 0 ≤ Q ∧ Q ≤ 24 ∧ 0 ≤ R ∧ R ≤ 3 ∧ 0 ≤ r ∧ r ≤ 365 ∧
      (r ≤ 364 ∨ (r = 365 ∧ R = 3 ∧ (Q < 24 ∨ C = 3))) ∧
      z + 719468 = 146097 * e + 36524 * C + 1461 * Q + 365 * R + r ∧
      day_key z =
        (400 * e + 100 * C + 4 * Q + R +
            (if (if (5 * r + 2) / 153 < 10 then (5 * r + 2) / 153 + 3
              else (5 * r + 2) / 153 - 9) ≤ 2 then 1 else 0)) * 10000 +
          (if (5 * r + 2) / 153 < 10 then (5 * r + 2) / 153 + 3 else (5 * r + 2) / 153 - 9) *
            100 +
          (r - (153 * ((5 * r + 2) / 153) + 2) / 5 + 1) := by
  have h0 : 0 ≤ (z + 719468) % 146097 := by omega
  have h1 : (z + 719468) % 146097 < 146097 := by omega
  obtain ⟨C, Q, R, r, hC0, hC, hQ0, hQ, hR0, hR, hr0, hr, ha⟩ := day_of_era_decompose _ h0 h1
  obtain ⟨hy, hs⟩ := year_of_era_decomposed _ C Q R r hC0 hC hQ0 hQ hR0 hR hr0 hr ha
  refine ⟨(z + 719468) / 146097, C, Q, R, r, hC0, hC, hQ0, hQ, hR0, hR, hr0, by omega, hr,
    by omega, ?_⟩
  simp only [day_key, civil_from_days, hy, hs]
  ring

theorem day_key_mono (z z' : Int) (h : z ≤ z') :
    day_key z ≤ day_key z' ∧ (z < z' → day_key z < day_key z') := by
  obtain ⟨e, C, Q, R, r, hC0, hC, hQ0, hQ, hR0, hR, hr0, hr, -, hz, hk⟩ :=
    civil_from_days_position z
  obtain ⟨e', C', Q', R', r', hC0', hC', hQ0', hQ', hR0', hR', hr0', hr', hs', hz', hk'⟩ :=
    civil_from_days_position z'
  have hP : 146097 * e + 36524 * C + 1461 * Q + 365 * R + r ≤
      146097 * e' + 36524 * C' + 1461 * Q' + 365 * R' + r' := by
    rw [← hz, ← hz']
    exact Int.add_le_add_right h _
  have hpos := pos_mono e C Q R r e' C' Q' R' r' hC0 hC hQ0 hQ hR0 hR hr0 hC0' hC' hQ0' hQ'
    hR0' hR' hr0' hs' hP
  rw [hk, hk']
  have hb := month_stage_bounds r hr0 hr
  have hb' := month_stage_bounds r' hr0' hr'
  generalize 400 * e + 100 * C + 4 * Q + R = yb at *
  generalize 400 * e' + 100 * C' + 4 * Q' + R' = yb' at *
  rcases lt_trichotomy yb yb' with hy | hy | hy
  · constructor
    · split_ifs <;> omega
    · intro _; split_ifs <;> omega
  · subst hy
    have hrr : r ≤ r' := by omega
    have hm := month_stage_mono r r' hr0 hrr hr'
    have hlt : z < z' → r < r' := by intro hzz; omega
    generalize (5 * r + 2) / 153 = mp at *
    generalize (5 * r' + 2) / 153 = mp' at *
    constructor
    · split_ifs <;> omega
    · intro hzz
      have := hm.2 (hlt hzz)
      split_ifs <;> omega
  · exfalso; omega

/-- Later seconds have later broken-down UTC times, and strictly later ones are not earlier
or equal. -/
theorem gmtime_rs_fields_le (t t' : Int) (hlo : -9223372036 ≤ t) (hhi' : t' ≤ 9223372036)
    (h : t ≤ t') :
    fields_le (gmtime_rs t) (gmtime_rs t') ∧
      (t < t' → ¬ fields_le (gmtime_rs t') (gmtime_rs t)) := by
  have hb := civil_from_days_bounds (t / 86400) (by omega) (by omega)
  have hb' := civil_from_days_bounds (t' / 86400) (by omega) (by omega)
  have hdays : t / 86400 ≤ t' / 86400 := by omega
  have hk := day_key_mono (t / 86400) (t' / 86400) hdays
  unfold day_key at hk
  unfold fields_le gmtime_rs
  simp only
  by_cases hd : t / 86400 = t' / 86400
  · rw [hd]
    constructor
    · omega
    · intro hlt; omega
  · have hk2 := hk.2 (by omega)
    generalize civil_from_days (t / 86400) = c at *
    generalize civil_from_days (t' / 86400) = c' at *
    obtain ⟨y, m, d⟩ := c
    obtain ⟨y', m', d'⟩ := c'
    simp only at hb hb' hk2 ⊢
    constructor
    · omega
    · intro _; omega

/-- Two names with the same stem and extension and fixed-width date and time fields compare
as their broken-down times do. -/
theorem stamped_name_lex_le (s e : List Char) (a b : Tm) (ha : fields_in_range a)
    (hb : fields_in_range b) :
    lex_le
        (s ++ '_' :: (digits4 (a.tm_year + 1900) ++ '-' :: (digits2 (a.tm_mon + 1) ++
          '-' :: (digits2 a.tm_mday ++ '_' :: (digits2 a.tm_hour ++ '-' :: (digits2 a.tm_min ++
          '-' :: (digits2 a.tm_sec ++ e)))))))
        (s ++ '_' :: (digits4 (b.tm_year + 1900) ++ '-' :: (digits2 (b.tm_mon + 1) ++
          '-' :: (digits2 b.tm_mday ++ '_' :: (digits2 b.tm_hour ++ '-' :: (digits2 b.tm_min ++
          '-' :: (digits2 b.tm_sec ++ e))))))) = true ↔
      fields_le a b := by
  obtain ⟨⟨y0, y1⟩, ⟨m0, m1⟩, ⟨d0, d1⟩, ⟨h0, h1⟩, ⟨i0, i1⟩, ⟨s0, s1⟩⟩ := ha
  obtain ⟨⟨y0', y1'⟩, ⟨m0', m1'⟩, ⟨d0', d1'⟩, ⟨h0', h1'⟩, ⟨i0', i1'⟩, ⟨s0', s1'⟩⟩ := hb
  rw [lex_le_append_left, lex_le_cons_same,
    lex_le_digits4 (by omega) y1 (by omega) y1', lex_le_cons_same,
    lex_le_digits2 (by omega) (by omega) (by omega) (by omega), lex_le_cons_same,
    lex_le_digits2 (by omega) (by omega) (by omega) (by omega), lex_le_cons_same,
    lex_le_digits2 h0 (by omega) h0' (by omega), lex_le_cons_same,
    lex_le_digits2 i0 (by omega) i0' (by omega), lex_le_cons_same,
    lex_le_digits2 s0 (by omega) s0' (by omega)]
  unfold fields_le
  simp only [lex_le_refl, and_true]
  constructor
  · rintro (h | ⟨h, g | ⟨g, f | ⟨f, k | ⟨k, l | ⟨l, n | n⟩⟩⟩⟩⟩)
    · exact Or.inl h
    · exact Or.inr ⟨h, Or.inl g⟩
    · exact Or.inr ⟨h, Or.inr ⟨g, Or.inl f⟩⟩
    · exact Or.inr ⟨h, Or.inr ⟨g, Or.inr ⟨f, Or.inl k⟩⟩⟩
    · exact Or.inr ⟨h, Or.inr ⟨g, Or.inr ⟨f, Or.inr ⟨k, Or.inl l⟩⟩⟩⟩
    · exact Or.inr ⟨h, Or.inr ⟨g, Or.inr ⟨f, Or.inr ⟨k, Or.inr ⟨l, le_of_lt n⟩⟩⟩⟩⟩
    · exact Or.inr ⟨h, Or.inr ⟨g, Or.inr ⟨f, Or.inr ⟨k, Or.inr ⟨l, le_of_eq n⟩⟩⟩⟩⟩
  · rintro (h | ⟨h, g | ⟨g, f | ⟨f, k | ⟨k, l | ⟨l, n⟩⟩⟩⟩⟩)
    · exact Or.inl h
    · exact Or.inr ⟨h, Or.inl g⟩
    · exact Or.inr ⟨h, Or.inr ⟨g, Or.inl f⟩⟩
    · exact Or.inr ⟨h, Or.inr ⟨g, Or.inr ⟨f, Or.inl k⟩⟩⟩
    · exact Or.inr ⟨h, Or.inr ⟨g, Or.inr ⟨f, Or.inr ⟨k, Or.inl l⟩⟩⟩⟩
    · exact Or.inr ⟨h, Or.inr ⟨g, Or.inr ⟨f, Or.inr ⟨k, Or.inr ⟨l, lt_or_eq_of_le n⟩⟩⟩⟩⟩

/-- The name with date and time for a non-zero representable timestamp under UTC, as a
function of the whole second the timestamp is truncated to. -/
theorem append_date_time_gmt_name (env : Env) (path : fs.Path) (tp : Int)
    (hr : representable tp) (hnz : tp ≠ 0) :
    append_date_to_filename env path tp true Timezone.GmtTime false false =
      (extract_stem_and_extension path).1 ++
        '_' :: (digits4 ((gmtime_rs (to_time_t tp)).tm_year + 1900) ++
        '-' :: (digits2 ((gmtime_rs (to_time_t tp)).tm_mon + 1) ++
        '-' :: (digits2 (gmtime_rs (to_time_t tp)).tm_mday ++
        '_' :: (digits2 (gmtime_rs (to_time_t tp)).tm_hour ++
        '-' :: (digits2 (gmtime_rs (to_time_t tp)).tm_min ++
        '-' :: (digits2 (gmtime_rs (to_time_t tp)).tm_sec ++
          (extract_stem_and_extension path).2)))))) := by
  rw [append_date_gmt env path tp true false false hr hnz]
  simp

theorem to_time_t_mono {a b : Int} (h : a ≤ b) : to_time_t a ≤ to_time_t b := by
  rw [to_time_t_eq, to_time_t_eq]
  split_ifs <;> omega

/-- C18, as stated, fails: half a second before and half a second after the epoch are in two
different seconds, and both names carry 1970-01-01_00-00-00. -/
theorem names_equal_across_epoch :
    representable (-500000000) ∧ representable 500000000 ∧ (-500000000 : Int) ≠ 0 ∧
      (500000000 : Int) ≠ 0 ∧ (-500000000 : Int) ≤ 500000000 ∧
      (-500000000 : Int) / 1000000000 ≠ 500000000 / 1000000000 ∧
      append_date_to_filename (utc_host 0) "app.log".toList (-500000000) true
          Timezone.GmtTime false false =
        append_date_to_filename (utc_host 0) "app.log".toList 500000000 true
          Timezone.GmtTime false false := by
  decide

/-- C18, amended: for a fixed path, the UTC time zone, the time included and no zeroing, and
two representable non-zero timestamps `t₁ ≤ t₂`, the name for `t₁` is lexicographically less
than or equal to the name for `t₂`; the two names are equal exactly when the two timestamps
are truncated toward zero to the same whole second, which for timestamps after the epoch means
that they fall in the same second. -/
theorem date_names_sorted (env : Env) (path : fs.Path) (t₁ t₂ : Int)
    (hr₁ : representable t₁) (hr₂ : representable t₂) (hz₁ : t₁ ≠ 0) (hz₂ : t₂ ≠ 0)
    (h : t₁ ≤ t₂) :
    lex_le (append_date_to_filename env path t₁ true Timezone.GmtTime false false)
        (append_date_to_filename env path t₂ true Timezone.GmtTime false false) = true ∧
      (append_date_to_filename env path t₁ true Timezone.GmtTime false false =
          append_date_to_filename env path t₂ true Timezone.GmtTime false false ↔
        to_time_t t₁ = to_time_t t₂) ∧
      (0 < t₁ → (to_time_t t₁ = to_time_t t₂ ↔ t₁ / 1000000000 = t₂ / 1000000000)) := by
  obtain ⟨l₁, u₁⟩ := to_time_t_bounds hr₁
  obtain ⟨l₂, u₂⟩ := to_time_t_bounds hr₂
  have hT := to_time_t_mono h
  have hf := gmtime_rs_fields_le (to_time_t t₁) (to_time_t t₂) l₁ u₂ hT
  have hb₁ : fields_in_range (gmtime_rs (to_time_t t₁)) := gmtime_rs_bounds _ l₁ u₁
  have hb₂ : fields_in_range (gmtime_rs (to_time_t t₂)) := gmtime_rs_bounds _ l₂ u₂
  have n₁ := append_date_time_gmt_name env path t₁ hr₁ hz₁
  have n₂ := append_date_time_gmt_name env path t₂ hr₂ hz₂
  refine ⟨?_, ⟨?_, ?_⟩, ?_⟩
  · rw [n₁, n₂, stamped_name_lex_le _ _ _ _ hb₁ hb₂]
    exact hf.1
  · intro heq
    by_contra hne
    have hlt : to_time_t t₁ < to_time_t t₂ := lt_of_le_of_ne hT hne
    apply hf.2 hlt
    rw [← stamped_name_lex_le (extract_stem_and_extension path).1
      (extract_stem_and_extension path).2 _ _ hb₂ hb₁, ← n₁, ← n₂, heq]
    exact lex_le_refl _
  · intro heq
    rw [n₁, n₂, heq]
  · intro hpos
    rw [to_time_t_eq_floor (Or.inl hpos), to_time_t_eq_floor (Or.inl (by omega))]

theorem date_names_sorted_witness :
    lex_le
        (append_date_to_filename (utc_host 0) "app.log".toList 1709800000000000000 true
          Timezone.GmtTime false false)
        (append_date_to_filename (utc_host 0) "app.log".toList 1709856000000000000 true
          Timezone.GmtTime false false) = true ∧
      (append_date_to_filename (utc_host 0) "app.log".toList 1709800000000000000 true
            Timezone.GmtTime false false =
          append_date_to_filename (utc_host 0) "app.log".toList 1709856000000000000 true
            Timezone.GmtTime false false ↔
        to_time_t 1709800000000000000 = to_time_t 1709856000000000000) ∧
      ((0 : Int) < 1709800000000000000 →
        (to_time_t 1709800000000000000 = to_time_t 1709856000000000000 ↔
          (1709800000000000000 : Int) / 1000000000 = 1709856000000000000 / 1000000000)) :=
  date_names_sorted (utc_host 0) "app.log".toList 1709800000000000000 1709856000000000000
    (by decide) (by decide) (by decide) (by decide) (by decide)

/-! ## The time-rotating file handler -/

open TimeRotatingFileHandler

theorem evict_append (bc : Nat) (files : List (Nat × fs.Path)) :
    (evict bc files).1 ++ (evict bc files).2 = files := by
  induction files with
  | nil => rfl
  | cons f rest ih =>
    unfold evict
    split_ifs
    · simp [ih]
    · simp

theorem evict_length (bc : Nat) (hbc : 0 < bc) (files : List (Nat × fs.Path)) :
    (evict bc files).2.length ≤ bc := by
  induction files with
  | nil => simp [evict]
  | cons f rest ih =>
    unfold evict
    split_ifs with h
    · exact ih
    · simp only [not_and, not_lt] at h
      exact h hbc

theorem evict_of_length_le (bc : Nat) (files : List (Nat × fs.Path))
    (h : files.length ≤ bc) : evict bc files = ([], files) := by
  cases files with
  | nil => rfl
  | cons f rest =>
    unfold evict
    rw [if_neg]
    intro hc
    omega

/-- What a call of `write` does to the handler: either the open of the fresh file failed and
nothing changed, or zero or one entry was pushed, the oldest entries were popped, and the
size was reset if an entry was pushed and grew by the bytes written. -/
theorem write_cases (env : Env) (io : FsOutcome) (h : TimeRotatingFileHandler) (n : Nat)
    (ts : Int) :
    ((write env io h n ts).handler = h ∧ (write env io h n ts).removed = [] ∧
        (write env io h n ts).error ≠ none ∧ (io.fopen h._filename ['w']).ok = false) ∨
    ∃ pushed : List (Nat × fs.Path), ∃ size deadline creation,
      (write env io h n ts).handler =
        { h with
          _created_files := (evict h._backup_count (h._created_files ++ pushed)).2
          _current_size := size
          _next_rotation_time := deadline
          _file_creation_time := creation } ∧
      (write env io h n ts).removed =
        (evict h._backup_count (h._created_files ++ pushed)).1.map (fun e => e.2) ∧
      (pushed = [] ∨ ∃ i p, pushed = [(i, p)] ∧ p ≠ h._filename) ∧
      (deadline = h._next_rotation_time ∨
        deadline = _calculate_rotation_tp h._next_rotation_time h._when h._interval) ∧
      ((write env io h n ts).error = none →
        (pushed = [] ∧ size = h._current_size + n ∧
            (h._max_bytes = 0 ∨ h._current_size + n ≤ h._max_bytes)) ∨
          (pushed ≠ [] ∧ size = n)) := by
  unfold write
  by_cases htime : h._next_rotation_time ≤ ts
  · -- time rotation
    by_cases hopen : (io.fopen h._filename ['w']).ok = true
    · right
      refine ⟨[(0, append_date_to_filename env h._filename h._file_creation_time
        (h._when != When.Daily) h._using_timezone (h._when == When.Hourly) true)], ?_⟩
      cases hw : fwrite_fully io.fwrite 1 n with
      | error e =>
        refine ⟨0, _calculate_rotation_tp h._next_rotation_time h._when h._interval, ts, ?_⟩
        simp [_time_rotation, _rotate_files, open_file, htime, hopen, hw]
        exact ⟨_, _, ⟨rfl, rfl⟩, append_date_to_filename_ne _ _ _ _ _ _ _⟩
      | ok u =>
        refine ⟨n, _calculate_rotation_tp h._next_rotation_time h._when h._interval, ts, ?_⟩
        simp [_time_rotation, _rotate_files, open_file, htime, hopen, hw]
        exact ⟨_, _, ⟨rfl, rfl⟩, append_date_to_filename_ne _ _ _ _ _ _ _⟩
    · left
      simp [_time_rotation, _rotate_files, open_file, htime, hopen]
  · by_cases hsize : 0 < h._max_bytes ∧ h._max_bytes < h._current_size + n
    · by_cases hopen : (io.fopen h._filename ['w']).ok = true
      · right
        refine ⟨[(next_index h._created_files,
          append_index_to_filename h._filename (next_index h._created_files))], ?_⟩
        have hidx : 1 ≤ next_index h._created_files := by unfold next_index; omega
        have hne := append_index_to_filename_ne h._filename _ hidx
        cases hw : fwrite_fully io.fwrite 1 n with
        | error e =>
          refine ⟨0, h._next_rotation_time, ts, ?_⟩
          simp [_time_rotation, _size_rotation, _rotate_files, open_file, htime, hsize.1, hsize.2, hopen,
            hw]
          exact ⟨_, _, ⟨rfl, rfl⟩, hne⟩
        | ok u =>
          refine ⟨n, h._next_rotation_time, ts, ?_⟩
          simp [_time_rotation, _size_rotation, _rotate_files, open_file, htime, hsize.1, hsize.2, hopen,
            hw]
          exact ⟨_, _, ⟨rfl, rfl⟩, hne⟩
      · left
        simp [_time_rotation, _size_rotation, _rotate_files, open_file, htime, hsize.1, hsize.2, hopen]
    · right
      refine ⟨[], ?_⟩
      have hno : ¬ (0 < h._max_bytes) ∨ ¬ (h._max_bytes < h._current_size + n) := by
        by_contra hc
        push_neg at hc
        exact hsize hc
      cases hw : fwrite_fully io.fwrite 1 n with
      | error e =>
        refine ⟨h._current_size, h._next_rotation_time, h._file_creation_time, ?_⟩
        rcases hno with h0 | h0 <;>
          simp [_time_rotation, _size_rotation, _rotate_files, open_file, htime, h0, hw]
      | ok u =>
        refine ⟨h._current_size + n, h._next_rotation_time, h._file_creation_time, ?_⟩
        rcases hno with h0 | h0
        · simp [_time_rotation, _size_rotation, _rotate_files, open_file, htime, h0, hw]
          omega
        · simp [_time_rotation, _size_rotation, _rotate_files, open_file, htime, h0, hw]
          omega

theorem write_keeps_configuration (env : Env) (io : FsOutcome) (h : TimeRotatingFileHandler)
    (n : Nat) (ts : Int) :
    (write env io h n ts).handler._filename = h._filename ∧
      (write env io h n ts).handler._backup_count = h._backup_count ∧
      (write env io h n ts).handler._max_bytes = h._max_bytes ∧
      (write env io h n ts).handler._when = h._when ∧
      (write env io h n ts).handler._interval = h._interval := by
  rcases write_cases env io h n ts with ⟨hh, -, -, -⟩ | ⟨pushed, size, deadline, creation, hh, -⟩
  · rw [hh]; exact ⟨rfl, rfl, rfl, rfl, rfl⟩
  · rw [hh]; exact ⟨rfl, rfl, rfl, rfl, rfl⟩

/-- What a call of `write` does to the queue of created files. -/
theorem write_created_files (env : Env) (io : FsOutcome) (h : TimeRotatingFileHandler)
    (n : Nat) (ts : Int) :
    ∃ pushed popped : List (Nat × fs.Path),
      popped ++ (write env io h n ts).handler._created_files = h._created_files ++ pushed ∧
      (write env io h n ts).removed = popped.map (fun e => e.2) ∧
      pushed.length ≤ 1 ∧ (∀ e ∈ pushed, e.2 ≠ h._filename) ∧
      (0 < h._backup_count → h._created_files.length ≤ h._backup_count ∨ (io.fopen h._filename ['w']).ok = true →
        (write env io h n ts).handler._created_files.length ≤ h._backup_count) := by
  rcases write_cases env io h n ts with ⟨hh, hr, -, hopen⟩ |
    ⟨pushed, size, deadline, creation, hh, hr, hp, -, -⟩
  · refine ⟨[], [], ?_, ?_, by simp, by simp, ?_⟩
    · rw [hh]; simp
    · rw [hr]; rfl
    · intro _ hor
      rw [hh]
      rcases hor with hl | ho
      · exact hl
      · rw [hopen] at ho; cases ho
  · refine ⟨pushed, (evict h._backup_count (h._created_files ++ pushed)).1, ?_, ?_, ?_, ?_, ?_⟩
    · rw [hh]; exact evict_append _ _
    · rw [hr]
    · rcases hp with rfl | ⟨i, p, rfl, -⟩ <;> simp
    · rcases hp with rfl | ⟨i, p, rfl, hne⟩
      · simp
      · intro e he
        rw [List.mem_singleton] at he
        rw [he]; exact hne
    · intro hbc _
      rw [hh]
      exact evict_length _ hbc _

/-- The queue invariant along a run: the configuration does not change, the queue stays
within the backup count and holds no entry for the file that is open. -/
theorem run_invariant (reqs : List Request) :
    ∀ h : TimeRotatingFileHandler, 0 < h._backup_count →
      h._created_files.length ≤ h._backup_count →
      (∀ e ∈ h._created_files, e.2 ≠ h._filename) →
      (run h reqs)._filename = h._filename ∧ (run h reqs)._backup_count = h._backup_count ∧
        (run h reqs)._created_files.length ≤ h._backup_count ∧
        (∀ e ∈ (run h reqs)._created_files, e.2 ≠ h._filename) := by
  induction reqs with
  | nil => intro h _ hl hm; exact ⟨rfl, rfl, hl, hm⟩
  | cons r rest ih =>
    intro h hbc hl hm
    obtain ⟨hf, hb, -, -, -⟩ := write_keeps_configuration r.env r.io h r.size r.timestamp
    obtain ⟨pushed, popped, happ, -, -, hpush, hlen⟩ :=
      write_created_files r.env r.io h r.size r.timestamp
    have hmem : ∀ e ∈ (write r.env r.io h r.size r.timestamp).handler._created_files,
        e.2 ≠ (write r.env r.io h r.size r.timestamp).handler._filename := by
      intro e he
      rw [hf]
      have : e ∈ h._created_files ++ pushed := by
        rw [← happ]; exact List.mem_append_right _ he
      rcases List.mem_append.mp this with h1 | h1
      · exact hm e h1
      · exact hpush e h1
    have := ih (write r.env r.io h r.size r.timestamp).handler (by rw [hb]; exact hbc)
      (by rw [hb]; exact hlen hbc (Or.inl hl)) hmem
    rw [hf, hb] at this
    exact this

/-- C12, as stated, fails: on a fresh file with `max_bytes = 1000`, a successful write of
1001 bytes leaves a tracked size of 1001. -/
theorem oversized_write_exceeds_max_bytes :
    0 < app_log_handler._max_bytes ∧
      (write (utc_host 0) fs_ok app_log_handler 1001 1705305600000000001).error = none ∧
      (write (utc_host 0) fs_ok app_log_handler 1001
        1705305600000000001).handler._current_size = 1001 ∧
      ¬ (write (utc_host 0) fs_ok app_log_handler 1001
        1705305600000000001).handler._current_size ≤ app_log_handler._max_bytes := by
  decide

/-- C12, amended: for every handler with `max_bytes > 0`, in whatever state earlier writes
left it, after a successful write of at most `max_bytes` bytes the tracked size of the open
file is at most `max_bytes`, which the write does not change. -/
theorem current_size_within_max_bytes (env : Env) (io : FsOutcome)
    (h : TimeRotatingFileHandler) (n : Nat) (ts : Int) (hmax : 0 < h._max_bytes)
    (hn : n ≤ h._max_bytes) (hok : (write env io h n ts).error = none) :
    (write env io h n ts).handler._current_size ≤ h._max_bytes ∧
      (write env io h n ts).handler._max_bytes = h._max_bytes := by
  refine ⟨?_, (write_keeps_configuration env io h n ts).2.2.1⟩
  rcases write_cases env io h n ts with ⟨-, -, hne, -⟩ |
    ⟨pushed, size, deadline, creation, hh, -, -, -, hsz⟩
  · exact absurd hok hne
  · rw [hh]
    rcases hsz hok with ⟨-, rfl, h0 | h0⟩ | ⟨-, rfl⟩
    · omega
    · exact h0
    · exact hn

theorem current_size_within_max_bytes_witness :
    (write (utc_host 0) fs_ok app_log_handler 1000
        1705305600000000001).handler._current_size ≤ app_log_handler._max_bytes ∧
      (write (utc_host 0) fs_ok app_log_handler 1000
        1705305600000000001).handler._max_bytes = app_log_handler._max_bytes :=
  current_size_within_max_bytes (utc_host 0) fs_ok app_log_handler 1000 1705305600000000001
    (by decide) (by decide) (by decide)

/-- C13: for every handler with `backup_count > 0` that starts with an empty queue, after
every sequence of writes and one more call of `write`: the queue holds at most `backup_count`
entries, before and after the call; the entries popped by the call, the entries kept and the
entry pushed, if any, are the queue in insertion order, so the popped ones are the oldest;
and no path given to `remove_file` is the name of the open file. -/
theorem created_files_bounded_fifo (h₀ : TimeRotatingFileHandler) (reqs : List Request)
    (env : Env) (io : FsOutcome) (n : Nat) (ts : Int) (hbc : 0 < h₀._backup_count)
    (hinit : h₀._created_files = []) :
    (run h₀ reqs)._created_files.length ≤ h₀._backup_count ∧
      (write env io (run h₀ reqs) n ts).handler._created_files.length ≤ h₀._backup_count ∧
      (∃ pushed popped : List (Nat × fs.Path),
        popped ++ (write env io (run h₀ reqs) n ts).handler._created_files =
          (run h₀ reqs)._created_files ++ pushed ∧
        (write env io (run h₀ reqs) n ts).removed = popped.map (fun e => e.2) ∧
        pushed.length ≤ 1) ∧
      (∀ p ∈ (write env io (run h₀ reqs) n ts).removed,
        p ≠ (write env io (run h₀ reqs) n ts).handler._filename) ∧
      (write env io (run h₀ reqs) n ts).handler._filename = h₀._filename := by
  obtain ⟨hf, hb, hl, hm⟩ := run_invariant reqs h₀ hbc (by rw [hinit]; simp)
    (by rw [hinit]; simp)
  obtain ⟨hf2, -, -, -, -⟩ := write_keeps_configuration env io (run h₀ reqs) n ts
  obtain ⟨pushed, popped, happ, hrem, hlen1, hpush, hlen⟩ :=
    write_created_files env io (run h₀ reqs) n ts
  refine ⟨hl, ?_, ⟨pushed, popped, happ, hrem, hlen1⟩, ?_, by rw [hf2, hf]⟩
  · have := hlen (by rw [hb]; exact hbc) (Or.inl (by rw [hb]; exact hl))
    rw [hb] at this
    exact this
  · intro p hp
    rw [hrem, List.mem_map] at hp
    obtain ⟨e, he, rfl⟩ := hp
    rw [hf2]
    have : e ∈ (run h₀ reqs)._created_files ++ pushed := by
      rw [← happ]; exact List.mem_append_left _ he
    rcases List.mem_append.mp this with h1 | h1
    · rw [hf]; exact hm e h1
    · exact hpush e h1

theorem created_files_bounded_fifo_witness :
    (run app_log_handler
        [⟨utc_host 0, fs_ok, 600, 1705305600000000001⟩,
          ⟨utc_host 0, fs_ok, 600, 1705305600000000002⟩,
          ⟨utc_host 0, fs_ok, 600, 1705305600000000003⟩])._created_files.length ≤ 2 ∧
      (write (utc_host 0) fs_ok
        (run app_log_handler
          [⟨utc_host 0, fs_ok, 600, 1705305600000000001⟩,
            ⟨utc_host 0, fs_ok, 600, 1705305600000000002⟩,
            ⟨utc_host 0, fs_ok, 600, 1705305600000000003⟩])
        600 1705305600000000004).removed = ["app.1.log".toList] :=
  ⟨(created_files_bounded_fifo app_log_handler
      [⟨utc_host 0, fs_ok, 600, 1705305600000000001⟩,
        ⟨utc_host 0, fs_ok, 600, 1705305600000000002⟩,
        ⟨utc_host 0, fs_ok, 600, 1705305600000000003⟩]
      (utc_host 0) fs_ok 600 1705305600000000004 (by decide) rfl).1, by decide⟩

theorem run_deadline (reqs : List Request) :
    ∀ h : TimeRotatingFileHandler, ∃ k : Nat,
      (run h reqs)._next_rotation_time =
        h._next_rotation_time + k * rotation_period h._when h._interval := by
  induction reqs with
  | nil => intro h; exact ⟨0, by simp [run]⟩
  | cons r rest ih =>
    intro h
    obtain ⟨-, -, -, hw, hi⟩ := write_keeps_configuration r.env r.io h r.size r.timestamp
    obtain ⟨k, hk⟩ := ih (write r.env r.io h r.size r.timestamp).handler
    rw [hw, hi] at hk
    have hstep : (write r.env r.io h r.size r.timestamp).handler._next_rotation_time =
          h._next_rotation_time ∨
        (write r.env r.io h r.size r.timestamp).handler._next_rotation_time =
          h._next_rotation_time + rotation_period h._when h._interval := by
      rcases write_cases r.env r.io h r.size r.timestamp with ⟨hh, -, -, -⟩ |
        ⟨pushed, size, deadline, creation, hh, -, -, hd, -⟩
      · left; rw [hh]
      · rw [hh]
        rcases hd with rfl | rfl
        · left; rfl
        · right
          simp only [_calculate_rotation_tp, rotation_period]
          cases h._when <;> rfl
    rcases hstep with hs | hs
    · exact ⟨k, by simp only [run]; rw [hk, hs]⟩
    · refine ⟨k + 1, ?_⟩
      simp only [run]
      rw [hk, hs]
      push_cast
      ring

/-- C14: for every time mode and a positive interval, the deadline computed from a previous
deadline is strictly later and exactly `interval` minutes (minutely), `interval` hours
(hourly) or 24 hours (daily) later; a call of `write` leaves the deadline as it is or
replaces it by the one computed from it, whatever the timestamp and the size of the write;
and after every sequence of writes the deadline is the first one plus a whole number of
periods. -/
theorem rotation_deadlines_periodic (h : TimeRotatingFileHandler) (reqs : List Request)
    (env : Env) (io : FsOutcome) (n : Nat) (ts prev : Int)
    (hint : h._when = When.Daily ∨ 0 < h._interval) :
    prev < _calculate_rotation_tp prev h._when h._interval ∧
      _calculate_rotation_tp prev When.Minutely h._interval - prev =
        (h._interval : Int) * 60 * 1000000000 ∧
      _calculate_rotation_tp prev When.Hourly h._interval - prev =
        (h._interval : Int) * 3600 * 1000000000 ∧
      _calculate_rotation_tp prev When.Daily h._interval - prev = 24 * 3600 * 1000000000 ∧
      _calculate_rotation_tp prev h._when h._interval - prev =
        rotation_period h._when h._interval ∧
      ((write env io h n ts).handler._next_rotation_time = h._next_rotation_time ∨
        (write env io h n ts).handler._next_rotation_time =
          _calculate_rotation_tp h._next_rotation_time h._when h._interval) ∧
      (∃ k : Nat, (run h reqs)._next_rotation_time =
        h._next_rotation_time + k * rotation_period h._when h._interval) := by
  refine ⟨?_, ?_, ?_, ?_, ?_, ?_, run_deadline reqs h⟩
  · rcases hint with hd | hi
    · rw [hd]; simp [_calculate_rotation_tp]
    · have : (0 : Int) < h._interval := by exact_mod_cast hi
      cases h._when <;> simp only [_calculate_rotation_tp] <;> omega
  · simp only [_calculate_rotation_tp]; ring
  · simp only [_calculate_rotation_tp]; ring
  · simp only [_calculate_rotation_tp]; ring
  · cases h._when <;> simp [_calculate_rotation_tp, rotation_period]
  · rcases write_cases env io h n ts with ⟨hh, -, -, -⟩ |
      ⟨pushed, size, deadline, creation, hh, -, -, hd, -⟩
    · left; rw [hh]
    · rw [hh]; exact hd

theorem rotation_deadlines_periodic_witness :
    (1705363200000000000 : Int) <
        _calculate_rotation_tp 1705363200000000000 app_log_handler._when
          app_log_handler._interval ∧
      (write (utc_host 0) fs_ok app_log_handler 10 1705999999000000000).handler._next_rotation_time
        = 1705449600000000000 :=
  ⟨(rotation_deadlines_periodic app_log_handler [] (utc_host 0) fs_ok 10 1705999999000000000
      1705363200000000000 (Or.inl rfl)).1, by decide⟩

end quill
